import Mathlib

set_option maxHeartbeats 1000000

/-!
Shallow embedding of the mail-normalization and recurrence-rule utilities of the
dashboard repository, together with proofs of the specification's claims about
them.  JavaScript strings are modelled as lists of characters; JavaScript
numbers reaching this code are integers produced by `parseInt`, which can also
yield `NaN`, so they are modelled by an explicit two-constructor type.
-/

namespace Dash

/-- Character strings of the JavaScript runtime, modelled as lists of characters. -/
abbrev Str := List Char

/-- JavaScript numbers flowing through the recurrence utilities: integer values
or the `NaN` produced by a failed `parseInt`. -/
inductive JsNum where
  | int (n : Int) : JsNum
  | nan : JsNum
deriving DecidableEq, Repr

/-- Horner-style value of a list of decimal digit characters. -/
def digitsVal (l : Str) : Nat :=
  l.foldl (fun a d => 10 * a + (d.toNat - '0'.toNat)) 0

/-- Character class of the ECMAScript `\\s` escape (WhiteSpace and
LineTerminator), also the set trimmed by `parseInt`. -/
def jsWs (c : Char) : Bool :=
  c == ' ' || c == '\t' || c == '\n' || c == '\r' ||
  c == Char.ofNat 11 || c == Char.ofNat 12 || c == Char.ofNat 0xa0 ||
  c == Char.ofNat 0xfeff || c == Char.ofNat 0x1680 ||
  (decide (Char.ofNat 0x2000 ≤ c) && decide (c ≤ Char.ofNat 0x200a)) ||
  c == Char.ofNat 0x2028 || c == Char.ofNat 0x2029 || c == Char.ofNat 0x202f ||
  c == Char.ofNat 0x205f || c == Char.ofNat 0x3000

/-- Embedding of JavaScript `parseInt(s, 10)`: skip leading whitespace, read an
optional sign and then a maximal run of decimal digits; `NaN` when the run is
empty. -/
def jsParseInt (s : Str) : JsNum :=
  match s.dropWhile jsWs with
  | '-' :: r =>
    if r.takeWhile Char.isDigit = [] then .nan
    else .int (-(digitsVal (r.takeWhile Char.isDigit) : Int))
  | '+' :: r =>
    if r.takeWhile Char.isDigit = [] then .nan
    else .int (digitsVal (r.takeWhile Char.isDigit))
  | t =>
    if t.takeWhile Char.isDigit = [] then .nan
    else .int (digitsVal (t.takeWhile Char.isDigit))

/-- Decimal digit character for a value below ten. -/
def digitChar (n : Nat) : Char := Char.ofNat ('0'.toNat + n)

/-- Fuel-driven digit expansion; the fuel only serves to make the recursion
structural, `natToChars` always supplies enough. -/
def natToCharsAux : Nat → Nat → Str
  | 0, _ => []
  | _fuel + 1, n =>
    if n < 10 then [digitChar n] else natToCharsAux _fuel (n / 10) ++ [digitChar (n % 10)]

/-- Decimal rendering of a natural number, as JavaScript template interpolation
produces for integers of ordinary magnitude. -/
def natToChars (n : Nat) : Str := natToCharsAux (n + 1) n

/-- Decimal rendering of an integer. -/
def intToChars (n : Int) : Str :=
  if n < 0 then '-' :: natToChars n.natAbs else natToChars n.toNat

/-- JavaScript string conversion of a number of type `JsNum`. -/
def jsNumToChars : JsNum → Str
  | .int n => intToChars n
  | .nan => ['N', 'a', 'N']

/-- Structured recurrence rule (`RecurrenceRule` in `src/lib/rruleUtils.ts`).
The TypeScript interface declares `freq` as a union of four literals, but the
parser assigns an arbitrary uppercased string through an unchecked cast, so the
field is modelled as a plain string. -/
structure RecurrenceRule where
  freq : Str
  interval : Option JsNum := none
  count : Option JsNum := none
  until' : Option Str := none
  byDay : Option (List Str) := none
  byMonthDay : Option (List JsNum) := none
  byMonth : Option (List JsNum) := none
  bySetPos : Option (List JsNum) := none
  wkst : Option Str := none
deriving DecidableEq, Repr

/-- The `Partial<RecurrenceRule>` accumulator used while parsing. -/
structure PartialRule where
  freq : Option Str := none
  interval : Option JsNum := none
  count : Option JsNum := none
  until' : Option Str := none
  byDay : Option (List Str) := none
  byMonthDay : Option (List JsNum) := none
  byMonth : Option (List JsNum) := none
  bySetPos : Option (List JsNum) := none
  wkst : Option Str := none
deriving DecidableEq, Repr

/-- Processing of one `key=value` clause of an RRULE string.  JavaScript
`part.split('=')` returns every `=`-separated segment and the destructuring
`const [key, value] = ...` keeps the first two, so a clause is skipped when it
has no `=` (the second segment is `undefined`, hence falsy) or when either of
the first two segments is empty. -/
def stepClause (r : PartialRule) (part : Str) : PartialRule :=
  match part.splitOn '=' with
  | key :: value :: _ =>
    if key = [] ∨ value = [] then r
    else
      let k := key.map Char.toUpper
      if k = "FREQ".toList then { r with freq := some (value.map Char.toUpper) }
      else if k = "INTERVAL".toList then { r with interval := some (jsParseInt value) }
      else if k = "COUNT".toList then { r with count := some (jsParseInt value) }
      else if k = "UNTIL".toList then { r with until' := some value }
      else if k = "BYDAY".toList then { r with byDay := some (value.splitOn ',') }
      else if k = "BYMONTHDAY".toList then
        { r with byMonthDay := some ((value.splitOn ',').map jsParseInt) }
      else if k = "BYMONTH".toList then
        { r with byMonth := some ((value.splitOn ',').map jsParseInt) }
      else if k = "BYSETPOS".toList then
        { r with bySetPos := some ((value.splitOn ',').map jsParseInt) }
      else if k = "WKST".toList then { r with wkst := some value }
      else r
  | _ => r

/-- Removal of the optional leading `RRULE:` token, matching the
case-insensitive anchored regular expression replacement of the source. -/
def stripRRulePrefix (s : Str) : Str :=
  if (s.take 6).map Char.toUpper = "RRULE:".toList then s.drop 6 else s

/-- Final step of parsing: the accumulated partial rule is returned as a
complete rule when a frequency was populated, `null` otherwise. -/
def mkParsedRule (result : PartialRule) : Option RecurrenceRule :=
  match result.freq with
  | none => none
  | some f =>
    some { freq := f, interval := result.interval, count := result.count,
           until' := result.until', byDay := result.byDay,
           byMonthDay := result.byMonthDay, byMonth := result.byMonth,
           bySetPos := result.bySetPos, wkst := result.wkst }

/-- Embedding of `parseRRule` from `src/lib/rruleUtils.ts`. -/
def parseRRule (s : Str) : Option RecurrenceRule :=
  if s = [] then none
  else mkParsedRule (((stripRRulePrefix s).splitOn ';').foldl stepClause {})

/-- Truthiness of an optional number: `NaN`, zero and `undefined` are falsy. -/
def truthyNum : Option JsNum → Bool
  | some (.int n) => decide (n ≠ 0)
  | _ => false

/-- Embedding of `buildRRule` from `src/lib/rruleUtils.ts`.  Each conditional
push of the source becomes a conditional singleton segment; the final string
joins the segments with `;` behind the `RRULE:` prefix. -/
def buildRRule (rule : RecurrenceRule) : Str :=
  "RRULE:".toList ++ [';'].intercalate (
    ["FREQ=".toList ++ rule.freq]
    ++ (match rule.interval with
        | some (.int n) => if 1 < n then ["INTERVAL=".toList ++ intToChars n] else []
        | _ => [])
    ++ (match rule.count with
        | some (.int n) => if n ≠ 0 then ["COUNT=".toList ++ intToChars n] else []
        | _ => [])
    ++ (match rule.until' with
        | some u => if u ≠ [] then ["UNTIL=".toList ++ u] else []
        | none => [])
    ++ (match rule.byDay with
        | some l => if l ≠ [] then ["BYDAY=".toList ++ [','].intercalate l] else []
        | none => [])
    ++ (match rule.byMonthDay with
        | some l =>
          if l ≠ [] then ["BYMONTHDAY=".toList ++ [','].intercalate (l.map jsNumToChars)] else []
        | none => [])
    ++ (match rule.byMonth with
        | some l =>
          if l ≠ [] then ["BYMONTH=".toList ++ [','].intercalate (l.map jsNumToChars)] else []
        | none => [])
    ++ (match rule.bySetPos with
        | some l =>
          if l ≠ [] then ["BYSETPOS=".toList ++ [','].intercalate (l.map jsNumToChars)] else []
        | none => [])
    ++ (match rule.wkst with
        | some w => if w ≠ [] then ["WKST=".toList ++ w] else []
        | none => []))

/-- Monthly selection mode of the recurrence editor. -/
inductive MonthlyType where
  | dayOfMonth
  | dayOfWeek
deriving DecidableEq, Repr

/-- End-condition mode of the recurrence editor. -/
inductive EndType where
  | never
  | count
  | until'
deriving DecidableEq, Repr

/-- UI state of the recurrence editor (`RecurrenceUIState` in the source). -/
structure RecurrenceUIState where
  enabled : Bool
  freq : Str
  interval : JsNum
  weeklyDays : List Str
  monthlyType : MonthlyType
  monthlyDayOfMonth : JsNum
  monthlyWeekOrdinal : JsNum
  monthlyWeekDay : Str
  endType : EndType
  endCount : JsNum
  endUntil : Str
deriving DecidableEq, Repr

/-- Embedding of `getDefaultRecurrenceUIState`. -/
def getDefaultRecurrenceUIState : RecurrenceUIState :=
  { enabled := false, freq := "WEEKLY".toList, interval := .int 1, weeklyDays := [],
    monthlyType := .dayOfMonth, monthlyDayOfMonth := .int 1, monthlyWeekOrdinal := .int 1,
    monthlyWeekDay := "MO".toList, endType := .never, endCount := .int 10, endUntil := [] }

/-- Uppercase Latin letter test, the character class `[A-Z]`. -/
def isUpperAZ (c : Char) : Bool := decide ('A' ≤ c) && decide (c ≤ 'Z')

/-- Test for the regular expression `^[A-Z]{2}$` used to pick out bare weekday
tokens. -/
def isSimpleTok : Str → Bool
  | [a, b] => isUpperAZ a && isUpperAZ b
  | _ => false

/-- Decomposition of a token matching `^(-?\d+)([A-Z]{2})$` into the `parseInt`
of its first group and its weekday letters; `none` when the anchored pattern
does not match. -/
def splitOrdinal (t : Str) : Option (JsNum × Str) :=
  let neg : Bool := match t with | '-' :: _ => true | _ => false
  let t1 : Str := match t with | '-' :: r => r | _ => t
  let ds := t1.takeWhile Char.isDigit
  match t1.dropWhile Char.isDigit with
  | [a, b] =>
    if ds = [] then none
    else if isUpperAZ a && isUpperAZ b then
      some (jsParseInt ((if neg then ['-'] else []) ++ ds), [a, b])
    else none
  | _ => none

/-- Test for the regular expression `^-?\d+[A-Z]{2}$` used to find
ordinal-prefixed weekday tokens. -/
def isOrdinalTok (t : Str) : Bool := (splitOrdinal t).isSome

/-- The `rule.byDay` block of `rruleToUIState`: bare two-letter tokens set
`weeklyDays` when any are present, and the first ordinal-prefixed token sets
the monthly-by-weekday fields and `monthlyType`. -/
def applyByDay (byDay : Option (List Str)) (st : RecurrenceUIState) : RecurrenceUIState :=
  match byDay with
  | some l =>
    if l ≠ [] then
      let simpleDays := l.filter isSimpleTok
      let st := if simpleDays ≠ [] then { st with weeklyDays := simpleDays } else st
      match l.find? isOrdinalTok with
      | some t =>
        match splitOrdinal t with
        | some (o, w) =>
          { st with monthlyType := .dayOfWeek, monthlyWeekOrdinal := o,
                    monthlyWeekDay := w }
        | none => st
      | none => st
    else st
  | none => st

/-- The `rule.byMonthDay` block of `rruleToUIState`, which runs after the
`byDay` block and overwrites `monthlyType` whenever the list is non-empty. -/
def applyByMonthDay (byMonthDay : Option (List JsNum)) (st : RecurrenceUIState) :
    RecurrenceUIState :=
  match byMonthDay with
  | some l =>
    if l ≠ [] then
      { st with monthlyType := .dayOfMonth, monthlyDayOfMonth := l.headD .nan }
    else st
  | none => st

/-- The end-condition block of `rruleToUIState`: a truthy count wins,
otherwise a non-empty until date is reformatted with dashes. -/
def applyEnd (count : Option JsNum) (until' : Option Str) (st : RecurrenceUIState) :
    RecurrenceUIState :=
  if truthyNum count then
    { st with endType := .count,
              endCount := match count with | some c => c | none => .nan }
  else
    match until' with
    | some u =>
      if u ≠ [] then
        { st with endType := .until',
                  endUntil := u.take 4 ++ '-' :: (u.drop 4).take 2 ++ '-' :: (u.drop 6).take 2 }
      else st
    | none => st

/-- Initial state assembled by `rruleToUIState` before the field blocks run:
the defaults with `enabled`, `freq` and `interval` (`rule.interval || 1`)
populated. -/
def uiStateBase (rule : RecurrenceRule) : RecurrenceUIState :=
  { getDefaultRecurrenceUIState with
    enabled := true, freq := rule.freq,
    interval := match rule.interval with
      | some (.int n) => if n ≠ 0 then JsNum.int n else .int 1
      | _ => .int 1 }

/-- Embedding of `rruleToUIState` from `src/lib/rruleUtils.ts`.  The source's
sequence of mutations of one `state` object is rendered as the composition of
the three block functions above applied to the initial state. -/
def rruleToUIState (s : Str) : RecurrenceUIState :=
  if s = [] then getDefaultRecurrenceUIState
  else
    match parseRRule s with
    | none => getDefaultRecurrenceUIState
    | some rule =>
      applyEnd rule.count rule.until'
        (applyByMonthDay rule.byMonthDay (applyByDay rule.byDay (uiStateBase rule)))

/-! ## Gmail message model (`src/unnamed/part_004`) -/

/-- Body record of a message part (`GmailMessagePartBody`). -/
structure PartBody where
  attachmentId : Option Str := none
  size : Option JsNum := none
  data : Option Str := none
deriving DecidableEq, Repr

mutual

/-- A node of the raw message part tree (`GmailMessagePart`; the root payload
`GmailMessagePayload` has the same shape).  An absent `parts` array and an
empty one are observationally equal in the source, which only ever iterates
over the array, so `parts` is modelled as a list of children; the list is a
mutual inductive (`PartList`) rather than `List MessagePart` so that the tree
walks below are structurally recursive and computable by the kernel. -/
inductive MessagePart where
  | mk (mimeType : Str) (filename : Str) (headers : Option (List (Str × Str)))
      (body : PartBody) (parts : PartList) : MessagePart

inductive PartList where
  | nil : PartList
  | cons (head : MessagePart) (tail : PartList) : PartList

end

def MessagePart.mimeType : MessagePart → Str
  | .mk m _ _ _ _ => m

def MessagePart.filename : MessagePart → Str
  | .mk _ f _ _ _ => f

def MessagePart.headers : MessagePart → Option (List (Str × Str))
  | .mk _ _ h _ _ => h

def MessagePart.body : MessagePart → PartBody
  | .mk _ _ _ b _ => b

def MessagePart.parts : MessagePart → PartList
  | .mk _ _ _ _ ps => ps

/-- Children list built from an ordinary list, for writing concrete trees. -/
def partsOf : List MessagePart → PartList
  | [] => .nil
  | p :: ps => .cons p (partsOf ps)

/-- Truthiness of an optional string: `undefined` and the empty string are falsy. -/
def truthyStr : Option Str → Bool
  | some s => decide (s ≠ [])
  | none => false

/-- Attachment descriptor (`EmailAttachment`). -/
structure EmailAttachment where
  attachmentId : Str
  filename : Str
  mimeType : Str
  size : JsNum
deriving DecidableEq, Repr

/-- Resolved inline image (`InlineImage`). -/
structure InlineImage where
  contentId : Str
  mimeType : Str
  data : Str
deriving DecidableEq, Repr

/-- Unresolved inline-image descriptor (`InlineImagePart`). -/
structure InlineImagePart where
  contentId : Str
  mimeType : Str
  data : Option Str := none
  attachmentId : Option Str := none
deriving DecidableEq, Repr

/-! ## Transport decoding -/

/-- ASCII whitespace removed by forgiving base64 decoding. -/
def asciiWs (c : Char) : Bool :=
  c == '\t' || c == '\n' || c == (Char.ofNat 12) || c == '\r' || c == ' '

/-- Value of one base64 alphabet character. -/
def b64Val (c : Char) : Option Nat :=
  if isUpperAZ c then some (c.toNat - 'A'.toNat)
  else if decide ('a' ≤ c) && decide (c ≤ 'z') then some (c.toNat - 'a'.toNat + 26)
  else if c.isDigit then some (c.toNat - '0'.toNat + 52)
  else if c == '+' then some 62
  else if c == '/' then some 63
  else none

/-- Bytes of a list of 6-bit values; incomplete groups of two or three
characters contribute one or two bytes with the leftover bits discarded. -/
def b64Groups : List Nat → List Nat
  | a :: b :: c :: d :: rest =>
    (a * 4 + b / 16) :: ((b % 16) * 16 + c / 4) :: ((c % 4) * 64 + d) :: b64Groups rest
  | [a, b] => [a * 4 + b / 16]
  | [a, b, c] => [a * 4 + b / 16, (b % 16) * 16 + c / 4]
  | _ => []

/-- Forgiving base64 decoding as performed by `window.atob`: strip ASCII
whitespace, allow up to two trailing padding characters when the length is a
multiple of four, reject a length congruent to one modulo four and any
character outside the alphabet. -/
def atobForgiving (s : Str) : Option (List Nat) :=
  let t := s.filter (fun c => !asciiWs c)
  let t :=
    if t.length % 4 = 0 then
      match t.reverse with
      | '=' :: '=' :: r => r.reverse
      | '=' :: r => r.reverse
      | _ => t
    else t
  if t.length % 4 = 1 then none
  else if t.any (fun c => (b64Val c).isNone) then none
  else some (b64Groups (t.map (fun c => (b64Val c).getD 0)))

/-- Strict UTF-8 decoding of a byte list, rejecting truncated sequences,
overlong encodings, surrogate code points and values above `0x10FFFF`, as the
ECMAScript `decodeURIComponent` algorithm does. -/
def utf8Decode : List Nat → Option Str
  | [] => some []
  | b :: rest =>
    if b < 0x80 then (utf8Decode rest).map (fun t => Char.ofNat b :: t)
    else if b < 0xC2 then none
    else if b < 0xE0 then
      match rest with
      | b2 :: rest2 =>
        if 0x80 ≤ b2 ∧ b2 < 0xC0 then
          (utf8Decode rest2).map (fun t => Char.ofNat ((b - 0xC0) * 0x40 + (b2 - 0x80)) :: t)
        else none
      | [] => none
    else if b < 0xF0 then
      match rest with
      | b2 :: b3 :: rest2 =>
        if (0x80 ≤ b2 ∧ b2 < 0xC0) ∧ (0x80 ≤ b3 ∧ b3 < 0xC0) then
          let cp := (b - 0xE0) * 0x1000 + (b2 - 0x80) * 0x40 + (b3 - 0x80)
          if cp < 0x800 ∨ (0xD800 ≤ cp ∧ cp < 0xE000) then none
          else (utf8Decode rest2).map (fun t => Char.ofNat cp :: t)
        else none
      | _ => none
    else if b < 0xF5 then
      match rest with
      | b2 :: b3 :: b4 :: rest2 =>
        if (0x80 ≤ b2 ∧ b2 < 0xC0) ∧ (0x80 ≤ b3 ∧ b3 < 0xC0) ∧ (0x80 ≤ b4 ∧ b4 < 0xC0) then
          let cp := (b - 0xF0) * 0x40000 + (b2 - 0x80) * 0x1000 + (b3 - 0x80) * 0x40 + (b4 - 0x80)
          if cp < 0x10000 ∨ 0x110000 ≤ cp then none
          else (utf8Decode rest2).map (fun t => Char.ofNat cp :: t)
        else none
      | _ => none
    else none

/-- The `-`/`_` to `+`/`/` normalization applied before base64 decoding. -/
def b64urlNormalize (s : Str) : Str :=
  s.map (fun c => if c = '-' then '+' else if c = '_' then '/' else c)

/-- The throwing transport pipeline
`decodeURIComponent(escape(window.atob(base64)))` as a failable function.
`escape` percent-encodes every byte of the binary string produced by `atob`
and `decodeURIComponent` reverses that while decoding UTF-8, so the
composition is exactly UTF-8 decoding of the decoded bytes; `none` models the
exception path of either step. -/
def decodeTransport (base64 : Str) : Option Str :=
  (atobForgiving base64).bind utf8Decode

/-- Embedding of `decodeBase64`: empty input short-circuits, the URL-safe
alphabet is normalized, and the `catch` block turns a decoding exception into
the empty string. -/
def decodeBase64 (data : Str) : Str :=
  if data = [] then []
  else
    match decodeTransport (b64urlNormalize data) with
    | some r => r
    | none => []

/-! ## Plain-text promotion to HTML -/

/-- Global single-character replacement, the meaning of
`String.prototype.replace` with a one-character pattern and the `g` flag. -/
def replaceChar (target : Char) (rep : Str) : Str → Str
  | [] => []
  | c :: cs => (if c = target then rep else [c]) ++ replaceChar target rep cs

/-- The five sequential HTML escapes of `convertTextToHtml`, ampersand first. -/
def escapeHtml (text : Str) : Str :=
  replaceChar '\'' "&#39;".toList
    (replaceChar '"' "&quot;".toList
      (replaceChar '>' "&gt;".toList
        (replaceChar '<' "&lt;".toList
          (replaceChar '&' "&amp;".toList text))))

/-- Characters admitted inside a linkified URL, the class `[^\s<>"']`. -/
def urlChar (c : Char) : Bool :=
  !jsWs c && !(c == '<') && !(c == '>') && !(c == '"') && !(c == '\'')

/-- Leftmost-match attempt of `(https?:\/\/[^\s<>"']+)` at the head of the
string: the scheme is matched literally (greedy optional `s`, deterministic
here) and the class run is maximal and must be non-empty. -/
def matchUrlAt : Str → Option (Str × Str)
  | 'h' :: 't' :: 't' :: 'p' :: rest =>
    match rest with
    | 's' :: ':' :: '/' :: '/' :: r2 =>
      if r2.takeWhile urlChar = [] then none
      else some ("https://".toList ++ r2.takeWhile urlChar, r2.dropWhile urlChar)
    | ':' :: '/' :: '/' :: r2 =>
      if r2.takeWhile urlChar = [] then none
      else some ("http://".toList ++ r2.takeWhile urlChar, r2.dropWhile urlChar)
    | _ => none
  | _ => none

/-- Fuel-driven global URL replacement; the fuel only makes the recursion
structural and `linkify` always supplies enough, since every step consumes at
least one character. -/
def linkifyAux : Nat → Str → Str
  | 0, s => s
  | fuel + 1, s =>
    match s with
    | [] => []
    | c :: cs =>
      match matchUrlAt (c :: cs) with
      | some (url, rest) =>
        "<a href=\"".toList ++ url ++ "\">".toList ++ url ++ "</a>".toList ++
          linkifyAux fuel rest
      | none => c :: linkifyAux fuel cs

/-- The URL-linkification replacement
`escaped.replace(urlPattern, '<a href="$1">$1</a>')`. -/
def linkify (s : Str) : Str := linkifyAux (s.length + 1) s

/-- Global replacement of the two-character sequence CR LF by `<br>`,
performed before the single-character conversions. -/
def replaceCRLF : Str → Str
  | [] => []
  | [c] => [c]
  | c :: d :: rest =>
    if c = '\r' ∧ d = '\n' then "<br>".toList ++ replaceCRLF rest
    else c :: replaceCRLF (d :: rest)

/-- Embedding of `convertTextToHtml`: escape, linkify, then convert the three
newline conventions, the two-character one first. -/
def convertTextToHtml (text : Str) : Str :=
  replaceChar '\n' "<br>".toList
    (replaceChar '\r' "<br>".toList
      (replaceCRLF (linkify (escapeHtml text))))

/-! ## Body extraction -/

/-- One part's contribution to the body-candidate accumulator
`(htmlBody, textBody)`: each candidate is set only when still unset
(first-wins), and only parts whose `body.data` is truthy count. -/
def checkPart (m : Str) (b : PartBody) (acc : Option Str × Option Str) :
    Option Str × Option Str :=
  if m = "text/html".toList ∧ truthyStr b.data then
    (match acc.1 with | none => b.data | some h => some h, acc.2)
  else if m = "text/plain".toList ∧ truthyStr b.data then
    (acc.1, match acc.2 with | none => b.data | some t => some t)
  else acc

/-- The recursive `findBodyParts` walk: each part is checked before its
children, siblings in order, threading the mutable `htmlBody`/`textBody`
pair as an accumulator. -/
def findBodyParts : PartList → Option Str × Option Str → Option Str × Option Str
  | .nil, acc => acc
  | .cons (.mk m _ _ b sub) rest, acc =>
    findBodyParts rest (findBodyParts sub (checkPart m b acc))

/-- Embedding of `extractBody`: the root part is inspected first, then the
tree walk runs, and the HTML candidate wins, the plain-text candidate being
promoted through `convertTextToHtml` otherwise. -/
def extractBody (payload : MessagePart) : Str :=
  let acc0 : Option Str × Option Str :=
    if truthyStr payload.body.data then
      if payload.mimeType = "text/html".toList then (payload.body.data, none)
      else if payload.mimeType = "text/plain".toList then (none, payload.body.data)
      else (none, none)
    else (none, none)
  let acc := findBodyParts payload.parts acc0
  match acc.1 with
  | some h => decodeBase64 h
  | none =>
    match acc.2 with
    | some t => convertTextToHtml (decodeBase64 t)
    | none => []

/-! ## Attachment extraction -/

/-- JavaScript `x || 0` on an optional number. -/
def sizeOrZero : Option JsNum → JsNum
  | some (.int n) => if n ≠ 0 then .int n else .int 0
  | _ => .int 0

/-- The recursive `findAttachments` walk: a part contributes exactly when its
`body.attachmentId` is truthy and its `filename` is non-empty, the entry is
pushed before the children are visited, and the shared array makes the result
the concatenation below. -/
def findAttachments : PartList → List EmailAttachment
  | .nil => []
  | .cons (.mk m f _ b sub) rest =>
    (if truthyStr b.attachmentId ∧ f ≠ [] then
      [{ attachmentId := b.attachmentId.getD [], filename := f, mimeType := m,
         size := sizeOrZero b.size }]
     else [])
    ++ findAttachments sub ++ findAttachments rest

/-- Embedding of `extractAttachments`: the walk starts at `payload.parts`, so
the root part itself is never inspected.  The message id parameter of the
source is unused there as well. -/
def extractAttachments (payload : MessagePart) : List EmailAttachment :=
  findAttachments payload.parts

/-! ## Inline image extraction and resolution -/

/-- The recursive `findInlineImages` walk of `extractInlineImageParts`. -/
def findInlineImages : PartList → List InlineImagePart
  | .nil => []
  | .cons (.mk m _ hs b sub) rest =>
    (if m.take 6 = "image/".toList ∧ hs ≠ none then
      match (hs.getD []).find? (fun h => h.1.map Char.toLower = "content-id".toList) with
      | some h =>
        let cid0 := h.2
        let cid :=
          if cid0.head? = some '<' ∧ cid0.getLast? = some '>' then (cid0.drop 1).dropLast
          else cid0
        if truthyStr b.data then
          [{ contentId := cid, mimeType := m, data := some (b64urlNormalize (b.data.getD [])) }]
        else if truthyStr b.attachmentId then
          [{ contentId := cid, mimeType := m, attachmentId := b.attachmentId }]
        else []
      | none => []
     else [])
    ++ findInlineImages sub ++ findInlineImages rest

/-- Embedding of `extractInlineImageParts`; as with attachments the walk
starts at `payload.parts`. -/
def extractInlineImageParts (payload : MessagePart) : List InlineImagePart :=
  findInlineImages payload.parts

/-- Outcome of one attachment fetch: a successful response carrying the
transport-encoded data, a non-OK HTTP response, or a thrown error. -/
inductive FetchOutcome where
  | ok (data : Str)
  | httpError
  | threw
deriving DecidableEq, Repr

/-- One iteration of the `fetchInlineImageData` loop: inline data passes
through, an external reference is fetched through the oracle, and both a
non-OK response and a thrown error contribute nothing (the `catch` logs and
continues). -/
def resolveInlineImage (oracle : Str → FetchOutcome) (p : InlineImagePart) :
    Option InlineImage :=
  if truthyStr p.data then some { contentId := p.contentId, mimeType := p.mimeType, data := p.data.getD [] }
  else if truthyStr p.attachmentId then
    match oracle (p.attachmentId.getD []) with
    | .ok d => some { contentId := p.contentId, mimeType := p.mimeType, data := b64urlNormalize d }
    | .httpError => none
    | .threw => none
  else none

/-- Embedding of `fetchInlineImageData`: the sequential loop pushes each
resolved image in candidate order, skipping failures. -/
def fetchInlineImageData (oracle : Str → FetchOutcome) : List InlineImagePart → List InlineImage
  | [] => []
  | p :: rest =>
    match resolveInlineImage oracle p with
    | some img => img :: fetchInlineImageData oracle rest
    | none => fetchInlineImageData oracle rest

/-! ## CID reference rewriting -/

/-- Case-insensitive literal prefix match, returning the matched source text
and the remainder.  The ECMAScript `i` flag canonicalizes by case folding,
which agrees with ASCII lowercasing on the characters appearing here. -/
def matchCI : Str → Str → Option (Str × Str)
  | [], s => some ([], s)
  | _ :: _, [] => none
  | p :: ps, c :: cs =>
    if c.toLower = p.toLower then
      match matchCI ps cs with
      | some (m, r) => some (c :: m, r)
      | none => none
    else none

/-- Quote characters admitted by the class in the CID pattern. -/
def isQuote (c : Char) : Bool := c == '"' || c == '\''

/-- Match of the pattern `(src=["'])cid:ID(["'])` at the head of the string,
case-insensitively.  `escapeRegExp` makes the interpolated identifier a
literal in the source, so the identifier is matched literally here.  On
success the first group's matched text, the closing quote and the remainder
are returned. -/
def matchCidAt (id : Str) (s : Str) : Option (Str × Char × Str) :=
  match matchCI "src=".toList s with
  | none => none
  | some (m1, r1) =>
    match r1 with
    | q1 :: r2 =>
      if isQuote q1 then
        match matchCI "cid:".toList r2 with
        | none => none
        | some (_, r3) =>
          match matchCI id r3 with
          | none => none
          | some (_, r4) =>
            match r4 with
            | q2 :: r5 => if isQuote q2 then some (m1 ++ [q1], q2, r5) else none
            | [] => none
      else none
    | [] => none

/-- Fuel-driven global replacement of the CID pattern by
`$1<uri>$2`: the matched first group and closing quote are preserved and the
replacement text is not rescanned.  The fuel only makes the recursion
structural; every step consumes at least one character. -/
def replaceScanAux (id uri : Str) : Nat → Str → Str
  | 0, s => s
  | fuel + 1, s =>
    match s with
    | [] => []
    | c :: cs =>
      match matchCidAt id (c :: cs) with
      | some (pre, q2, rest) => pre ++ uri ++ q2 :: replaceScanAux id uri fuel rest
      | none => c :: replaceScanAux id uri fuel cs

/-- Global regex replacement `result.replace(cidPattern, ...)` for one
identifier. -/
def replaceScan (id uri s : Str) : Str := replaceScanAux id uri (s.length + 1) s

/-- UTF-8 bytes of one character. -/
def utf8EncodeChar (c : Char) : List Nat :=
  let n := c.toNat
  if n < 0x80 then [n]
  else if n < 0x800 then [0xC0 + n / 0x40, 0x80 + n % 0x40]
  else if n < 0x10000 then [0xE0 + n / 0x1000, 0x80 + (n / 0x40) % 0x40, 0x80 + n % 0x40]
  else [0xF0 + n / 0x40000, 0x80 + (n / 0x1000) % 0x40, 0x80 + (n / 0x40) % 0x40, 0x80 + n % 0x40]

/-- Uppercase hexadecimal digit. -/
def hexDigitUpper (n : Nat) : Char :=
  if n < 10 then digitChar n else Char.ofNat ('A'.toNat + (n - 10))

/-- Characters `encodeURIComponent` leaves unencoded. -/
def uriUnreserved (c : Char) : Bool :=
  isUpperAZ c || (decide ('a' ≤ c) && decide (c ≤ 'z')) || c.isDigit ||
  c == '-' || c == '_' || c == '.' || c == '!' || c == '~' || c == '*' ||
  c == '\'' || c == '(' || c == ')'

/-- Percent-encoding of one character. -/
def encChar (c : Char) : Str :=
  if uriUnreserved c then [c]
  else (utf8EncodeChar c).foldr
    (fun b acc => '%' :: hexDigitUpper (b / 16) :: hexDigitUpper (b % 16) :: acc) []

/-- The ECMAScript `encodeURIComponent` function on strings without lone
surrogates (which cannot occur in this model). -/
def encodeURIComponent (s : Str) : Str := s.foldr (fun c acc => encChar c ++ acc) []

/-- The data URI the loop builds for one image. -/
def dataUri (image : InlineImage) : Str :=
  "data:".toList ++ image.mimeType ++ ";base64,".toList ++ image.data

/-- Embedding of `replaceCidWithDataUri`: for each image, replace the raw
identifier pattern, then the percent-encoded identifier pattern, the latter
only when the encoded form differs from the raw form. -/
def replaceCidWithDataUri (body : Str) (inlineImages : List InlineImage) : Str :=
  if body = [] ∨ inlineImages = [] then body
  else
    inlineImages.foldl
      (fun res image =>
        if encodeURIComponent image.contentId ≠ image.contentId then
          replaceScan (encodeURIComponent image.contentId) (dataUri image)
            (replaceScan image.contentId (dataUri image) res)
        else replaceScan image.contentId (dataUri image) res)
      body

/-- Case-insensitive string equality, the equivalence classes the regular
expression flag `i` induces on the pattern characters involved here. -/
abbrev lowerEq (a b : Str) : Prop := a.map Char.toLower = b.map Char.toLower

/-! ## Message assembly -/

/-- Resolved header block of a formatted message.  The source field `from` is
a reserved word in Lean and is rendered `sender`. -/
structure EmailHeaders where
  subject : Str
  sender : Str
  to' : Str
  date : Str
deriving DecidableEq, Repr

/-- Formatted message record (`EmailMessage`). -/
structure EmailMessage where
  id : Str
  threadId : Str
  snippet : Str
  body : Option Str
  labelIds : Option (List Str)
  attachments : Option (List EmailAttachment)
  inlineImages : Option (List InlineImage)
  headers : EmailHeaders
deriving DecidableEq, Repr

/-- Raw message envelope (`GmailRawMessage`); only the fields the formatter
reads are modelled, and `payload` is optional to express the null check. -/
structure RawMessage where
  id : Str
  threadId : Str
  labelIds : Option (List Str)
  snippet : Str
  payload : Option MessagePart

/-- Pair of a formatted message and its pending inline-image descriptors
(`FormattedEmailWithParts`). -/
structure FormattedEmailWithParts where
  email : EmailMessage
  inlineImageParts : List InlineImagePart

/-- The `getHeader` helper: value of the first header whose name equals the
requested name exactly (JavaScript `===`), or the empty string. -/
def getHeaderVal (hs : List (Str × Str)) (name : Str) : Str :=
  match hs.find? (fun h => decide (h.1 = name)) with
  | some h => h.2
  | none => []

/-- JavaScript `v || d` on strings. -/
def jsOrStr (v d : Str) : Str := if v = [] then d else v

/-- Embedding of `formatEmailMessage`: a missing payload or header list yields
`null`; otherwise headers are resolved with their documented fallbacks and the
body, attachments and inline-image descriptors are extracted. -/
def formatEmailMessage (email : RawMessage) : Option FormattedEmailWithParts :=
  match email.payload with
  | none => none
  | some payload =>
    match payload.headers with
    | none => none
    | some hs =>
      some
        { email :=
            { id := email.id, threadId := email.threadId, snippet := email.snippet,
              body := some (extractBody payload),
              labelIds := some (email.labelIds.getD []),
              attachments := some (extractAttachments payload),
              inlineImages := some [],
              headers :=
                { subject := jsOrStr (getHeaderVal hs "Subject".toList) "(No Subject)".toList,
                  sender := jsOrStr (getHeaderVal hs "From".toList) "(Unknown Sender)".toList,
                  to' := jsOrStr (getHeaderVal hs "To".toList) "(Unknown Recipient)".toList,
                  date := getHeaderVal hs "Date".toList } },
          inlineImageParts := extractInlineImageParts payload }

/-- Embedding of `processInlineImages`: with no pending descriptors the
message passes through; otherwise the images are fetched and the body
rewritten when any resolved. -/
def processInlineImages (oracle : Str → FetchOutcome)
    (formatted : FormattedEmailWithParts) : EmailMessage :=
  if formatted.inlineImageParts = [] then formatted.email
  else
    let inlineImages := fetchInlineImageData oracle formatted.inlineImageParts
    let body0 := formatted.email.body.getD []
    let body := if inlineImages ≠ [] then replaceCidWithDataUri body0 inlineImages else body0
    { formatted.email with body := some body, inlineImages := some inlineImages }


/-! ## Specification-level derived definitions used by the theorems -/

/-- First-wins combination: an already-set candidate survives, otherwise the
first element of the candidate list is taken. -/
def firstOr (o : Option Str) (l : List Str) : Option Str :=
  match o with
  | some x => some x
  | none => l.head?

/-- Depth-first pre-order list of the body data of every part of the given
kind carrying truthy inline data, for a forest of parts. -/
def bodyCandidates (kind : Str) : PartList → List Str
  | .nil => []
  | .cons (.mk m _ _ b sub) rest =>
    (if m = kind ∧ truthyStr b.data then [b.data.getD []] else [])
    ++ bodyCandidates kind sub ++ bodyCandidates kind rest

/-- Depth-first pre-order body candidates of a whole payload tree, the root
part first. -/
def collectBodies (payload : MessagePart) (kind : Str) : List Str :=
  (if payload.mimeType = kind ∧ truthyStr payload.body.data then
    [payload.body.data.getD []]
   else [])
  ++ bodyCandidates kind payload.parts

/-- Depth-first pre-order flattening of a forest of parts, each part before
its children. -/
def preorder : PartList → List MessagePart
  | .nil => []
  | .cons (.mk m f h b sub) rest =>
    MessagePart.mk m f h b sub :: (preorder sub ++ preorder rest)

/-- Attachment descriptor of a single part, when its body carries a truthy
`attachmentId` and its filename is non-empty. -/
def attachmentOf (p : MessagePart) : Option EmailAttachment :=
  if truthyStr p.body.attachmentId ∧ p.filename ≠ [] then
    some { attachmentId := p.body.attachmentId.getD [], filename := p.filename,
           mimeType := p.mimeType, size := sizeOrZero p.body.size }
  else none

/-- Case-sensitive first-match header lookup, the specification-level reading
of header resolution after amendment. -/
def lookupHeaderExact (hs : List (Str × Str)) (name : Str) : Option Str :=
  (hs.find? (fun h => decide (h.1 = name))).map (fun h => h.2)

/-- The clause keys recognized by the parser's dispatch. -/
def knownKeys : List Str :=
  ["FREQ".toList, "INTERVAL".toList, "COUNT".toList, "UNTIL".toList, "BYDAY".toList,
   "BYMONTHDAY".toList, "BYMONTH".toList, "BYSETPOS".toList, "WKST".toList]

/-- Characters that survive clause and list splitting unharmed. -/
def cleanChar (c : Char) : Bool := !(c == ';') && !(c == '=') && !(c == ',')

/-- Strings free of the three separator characters. -/
def cleanStr (s : Str) : Bool := s.all cleanChar

/-- Integers that JavaScript renders in plain decimal notation (below `1e21`),
the regime in which the decimal printer of this embedding agrees with
JavaScript string interpolation. -/
def SmallInt (n : Int) : Prop := n.natAbs < 10 ^ 21

/-- Well-formedness of a structured rule in the sense of the specification's
data model: the frequency is one of the four supported tokens, interval and
count are positive integers, list fields are non-empty when present, and
every serialized token is non-empty and free of the separator characters. -/
structure WellFormedRule (r : RecurrenceRule) : Prop where
  freq_valid :
    r.freq ∈ ["DAILY".toList, "WEEKLY".toList, "MONTHLY".toList, "YEARLY".toList]
  interval_ok : ∀ j ∈ r.interval, ∃ n : Int, j = .int n ∧ 0 < n ∧ SmallInt n
  count_ok : ∀ j ∈ r.count, ∃ n : Int, j = .int n ∧ 0 < n ∧ SmallInt n
  until_ok : ∀ u ∈ r.until', u ≠ [] ∧ cleanStr u = true
  byDay_ok : ∀ l ∈ r.byDay, l ≠ [] ∧ ∀ t ∈ l, t ≠ [] ∧ cleanStr t = true
  byMonthDay_ok : ∀ l ∈ r.byMonthDay, l ≠ [] ∧ ∀ j ∈ l, ∃ n : Int, j = .int n ∧ SmallInt n
  byMonth_ok : ∀ l ∈ r.byMonth, l ≠ [] ∧ ∀ j ∈ l, ∃ n : Int, j = .int n ∧ SmallInt n
  bySetPos_ok : ∀ l ∈ r.bySetPos, l ≠ [] ∧ ∀ j ∈ l, ∃ n : Int, j = .int n ∧ SmallInt n
  wkst_ok : ∀ w ∈ r.wkst, w ≠ [] ∧ cleanStr w = true


/-! ## Concrete sample inputs used by witnesses and counterexamples -/

/-- A payload whose root part itself carries an attachment id and filename. -/
def rootAttachPayload : MessagePart :=
  .mk "application/pdf".toList "f.pdf".toList none
    { attachmentId := some "a1".toList, size := some (.int 3) } .nil

/-- A raw message whose only subject-bearing header is spelled in lowercase. -/
def rawLowerSubject : RawMessage :=
  { id := "m1".toList, threadId := "t1".toList, labelIds := none, snippet := [],
    payload := some (.mk "text/plain".toList [] (some [("subject".toList, "Hi".toList)]) {} .nil) }

/-- A raw message with ordinary header spellings. -/
def rawPlainMessage : RawMessage :=
  { id := "m2".toList, threadId := "t2".toList, labelIds := none, snippet := [],
    payload := some (.mk "text/plain".toList []
      (some [("Subject".toList, "Hello".toList), ("From".toList, "a@b.c".toList)]) {} .nil) }

/-- A concrete structured rule with every field populated. -/
def wfSample : RecurrenceRule :=
  { freq := "WEEKLY".toList, interval := some (.int 2), count := some (.int 10),
    until' := some "20250101T000000Z".toList,
    byDay := some ["MO".toList, "WE".toList, "-1FR".toList],
    byMonthDay := some [.int 15, .int (-1)], byMonth := some [.int 1, .int 12],
    bySetPos := some [.int (-1)], wkst := some "MO".toList }

/-! ## Markup-safety infrastructure for the plain-text promotion -/

/-- The five entity strings the escape step can produce. -/
def entityList : List Str :=
  ["&amp;".toList, "&lt;".toList, "&gt;".toList, "&quot;".toList, "&#39;".toList]

/-- Characters that survive the escape step unchanged. -/
def safeChar (c : Char) : Bool :=
  !(c == '&') && !(c == '<') && !(c == '>') && !(c == '"') && !(c == '\'')

/-- Per-character meaning of the five sequential escapes. -/
def escChar (c : Char) : Str :=
  if c = '&' then "&amp;".toList
  else if c = '<' then "&lt;".toList
  else if c = '>' then "&gt;".toList
  else if c = '"' then "&quot;".toList
  else if c = '\'' then "&#39;".toList
  else [c]

/-- Characters that may appear raw outside inserted markup in the output. -/
def midChar (c : Char) : Bool := !(c == '&') && !(c == '<') && !(c == '>')

/-- The anchor markup inserted for one linkified URL. -/
def anchorStr (url : Str) : Str :=
  "<a href=\"".toList ++ url ++ "\">".toList ++ url ++ "</a>".toList

/-- Escaped text: a concatenation of entities and safe characters. -/
inductive EscText : Str → Prop where
  | nil : EscText []
  | ent : ∀ e rest, e ∈ entityList → EscText rest → EscText (e ++ rest)
  | chr : ∀ c rest, safeChar c = true → EscText rest → EscText (c :: rest)

/-- Proper URLs as matched by the linkifier: non-empty, within the URL
character class, and still in escaped form. -/
def UrlOk (url : Str) : Prop :=
  url ≠ [] ∧ (∀ c ∈ url, urlChar c = true) ∧ EscText url

/-- Output shape after linkification and line-break conversion: entities,
harmless raw characters, anchor markup around proper URLs and `<br>` tokens. -/
inductive MidText : Str → Prop where
  | nil : MidText []
  | ent : ∀ e rest, e ∈ entityList → MidText rest → MidText (e ++ rest)
  | chr : ∀ c rest, midChar c = true → MidText rest → MidText (c :: rest)
  | anchor : ∀ url rest, url ≠ [] → (∀ c ∈ url, urlChar c = true) → EscText url →
      MidText rest → MidText (anchorStr url ++ rest)
  | br : ∀ rest, MidText rest → MidText ("<br>".toList ++ rest)

mutual

/-- Scanner for the safety contract of C4: every `&` must begin one of the
five entities, every `<` must open `<br>`, `</a>` or `<a href="...">`
markup, and no bare `>` may occur; all other characters pass. -/
def safeMarkup : Str → Bool
  | [] => true
  | '&' :: 'a' :: 'm' :: 'p' :: ';' :: rest => safeMarkup rest
  | '&' :: 'l' :: 't' :: ';' :: rest => safeMarkup rest
  | '&' :: 'g' :: 't' :: ';' :: rest => safeMarkup rest
  | '&' :: 'q' :: 'u' :: 'o' :: 't' :: ';' :: rest => safeMarkup rest
  | '&' :: '#' :: '3' :: '9' :: ';' :: rest => safeMarkup rest
  | '&' :: _ => false
  | '<' :: 'b' :: 'r' :: '>' :: rest => safeMarkup rest
  | '<' :: '/' :: 'a' :: '>' :: rest => safeMarkup rest
  | '<' :: 'a' :: ' ' :: 'h' :: 'r' :: 'e' :: 'f' :: '=' :: '"' :: rest => hrefScan rest
  | '<' :: _ => false
  | '>' :: _ => false
  | _ :: rest => safeMarkup rest
termination_by s => s.length

/-- Scan of an attribute value up to the closing quote and tag end. -/
def hrefScan : Str → Bool
  | '"' :: '>' :: rest => safeMarkup rest
  | '<' :: _ => false
  | '>' :: _ => false
  | [] => false
  | _ :: rest => hrefScan rest
termination_by s => s.length

end

/-! ## Supporting lemmas -/

theorem char_toNat_ofNat (n : Nat) (h : n < 0xD800) : (Char.ofNat n).toNat = n := by
  unfold Char.ofNat
  split
  · rfl
  · rename_i hv
    exact absurd (Or.inl h) hv

theorem digitsVal_append_digit (a : Str) (c : Char) :
    digitsVal (a ++ [c]) = 10 * digitsVal a + (c.toNat - '0'.toNat) := by
  simp [digitsVal, List.foldl_append]

theorem digitChar_facts (n : Nat) (h : n < 10) :
    (digitChar n).isDigit = true ∧ cleanChar (digitChar n) = true ∧
      jsWs (digitChar n) = false ∧ digitChar n ≠ '-' ∧ digitChar n ≠ '+' := by
  interval_cases n <;> exact ⟨by decide, by decide, by decide, by decide, by decide⟩

theorem digitChar_val (n : Nat) (h : n < 10) : (digitChar n).toNat - '0'.toNat = n := by
  have h0 : '0'.toNat = 48 := rfl
  have hv : (digitChar n).toNat = 48 + n := by
    unfold digitChar
    rw [h0]
    exact char_toNat_ofNat (48 + n) (by omega)
  omega

theorem natToCharsAux_mem (fuel n : Nat) :
    ∀ c ∈ natToCharsAux fuel n, ∃ k, k < 10 ∧ c = digitChar k := by
  induction fuel generalizing n with
  | zero => simp [natToCharsAux]
  | succ fuel ih =>
    intro c hc
    simp only [natToCharsAux] at hc
    split at hc
    · rename_i h
      simp only [List.mem_singleton] at hc
      exact ⟨n, h, hc⟩
    · rcases List.mem_append.1 hc with h | h
      · exact ih (n / 10) c h
      · simp only [List.mem_singleton] at h
        exact ⟨n % 10, Nat.mod_lt _ (by omega), h⟩

theorem natToCharsAux_ne_nil (fuel n : Nat) (h : 0 < fuel) : natToCharsAux fuel n ≠ [] := by
  cases fuel with
  | zero => omega
  | succ fuel =>
    simp only [natToCharsAux]
    split
    · simp
    · simp

theorem natToCharsAux_val (fuel n : Nat) (h : n < fuel) :
    digitsVal (natToCharsAux fuel n) = n := by
  induction fuel generalizing n with
  | zero => omega
  | succ fuel ih =>
    simp only [natToCharsAux]
    split
    · rename_i h10
      have hv := digitChar_val n h10
      simp only [digitsVal, List.foldl_cons, List.foldl_nil]
      omega
    · rename_i h10
      push_neg at h10
      have hlt : n / 10 < fuel := by
        have := Nat.div_lt_self (by omega : 0 < n) (by omega : 1 < 10)
        omega
      rw [digitsVal_append_digit, ih _ hlt, digitChar_val (n % 10) (Nat.mod_lt _ (by omega))]
      omega

theorem natToChars_mem (n : Nat) : ∀ c ∈ natToChars n, ∃ k, k < 10 ∧ c = digitChar k :=
  natToCharsAux_mem _ _

theorem natToChars_ne_nil (n : Nat) : natToChars n ≠ [] :=
  natToCharsAux_ne_nil _ _ (by omega)

theorem digitsVal_natToChars (n : Nat) : digitsVal (natToChars n) = n :=
  natToCharsAux_val _ _ (by omega)

theorem dropWhile_head_false (p : Char → Bool) (c : Char) (cs : Str) (h : p c = false) :
    (c :: cs).dropWhile p = c :: cs := by
  simp [List.dropWhile_cons, h]

theorem takeWhile_all (p : Char → Bool) (l : Str) (h : ∀ c ∈ l, p c = true) :
    l.takeWhile p = l := by
  induction l with
  | nil => rfl
  | cons c cs ih =>
    simp [List.takeWhile_cons, h c (by simp), ih (fun x hx => h x (by simp [hx]))]

theorem jsParseInt_digits (l : Str) (hne : l ≠ [])
    (hd : ∀ c ∈ l, ∃ k, k < 10 ∧ c = digitChar k) :
    jsParseInt l = .int (digitsVal l) := by
  obtain ⟨c, cs, rfl⟩ := List.exists_cons_of_ne_nil hne
  obtain ⟨k, hk, hc⟩ := hd c (by simp)
  have hfacts := digitChar_facts k hk
  have hws : jsWs c = false := by rw [hc]; exact hfacts.2.2.1
  have hminus : c ≠ '-' := by rw [hc]; exact hfacts.2.2.2.1
  have hplus : c ≠ '+' := by rw [hc]; exact hfacts.2.2.2.2
  have hdig : ∀ x ∈ c :: cs, x.isDigit = true := by
    intro x hx
    obtain ⟨k', hk', rfl⟩ := hd x hx
    exact (digitChar_facts k' hk').1
  unfold jsParseInt
  rw [dropWhile_head_false jsWs c cs hws]
  split
  · rename_i r heq
    simp_all
  · rename_i r heq
    simp_all
  · rw [takeWhile_all Char.isDigit (c :: cs) hdig]
    simp

theorem jsParseInt_neg_digits (l : Str) (hne : l ≠ [])
    (hd : ∀ c ∈ l, ∃ k, k < 10 ∧ c = digitChar k) :
    jsParseInt ('-' :: l) = .int (-(digitsVal l : Int)) := by
  have hws : jsWs '-' = false := by decide
  have hdig : ∀ x ∈ l, x.isDigit = true := by
    intro x hx
    obtain ⟨k', hk', rfl⟩ := hd x hx
    exact (digitChar_facts k' hk').1
  unfold jsParseInt
  rw [dropWhile_head_false jsWs '-' l hws]
  simp only [takeWhile_all Char.isDigit l hdig, hne, if_false]

theorem jsParseInt_intToChars (n : Int) : jsParseInt (intToChars n) = .int n := by
  unfold intToChars
  split
  · rename_i hneg
    rw [jsParseInt_neg_digits _ (natToChars_ne_nil _) (natToChars_mem _),
      digitsVal_natToChars]
    congr 1
    omega
  · rename_i hpos
    rw [jsParseInt_digits _ (natToChars_ne_nil _) (natToChars_mem _), digitsVal_natToChars]
    congr 1
    omega

theorem cleanStr_not_mem (s : Str) (h : cleanStr s = true) : ';' ∉ s ∧ '=' ∉ s ∧ ',' ∉ s := by
  refine ⟨?_, ?_, ?_⟩ <;> intro hm <;>
    simpa [cleanChar] using List.all_eq_true.1 h _ hm

theorem intToChars_clean (n : Int) : cleanStr (intToChars n) = true := by
  rw [cleanStr, List.all_eq_true]
  intro c hc
  unfold intToChars at hc
  split at hc
  · rcases List.mem_cons.1 hc with rfl | hc
    · decide
    · obtain ⟨k, hk, rfl⟩ := natToChars_mem _ c hc
      exact (digitChar_facts k hk).2.1
  · obtain ⟨k, hk, rfl⟩ := natToChars_mem _ c hc
    exact (digitChar_facts k hk).2.1

theorem fetchInlineImageData_filterMap (oracle : Str → FetchOutcome)
    (l : List InlineImagePart) :
    fetchInlineImageData oracle l = l.filterMap (resolveInlineImage oracle) := by
  induction l with
  | nil => rfl
  | cons p rest ih =>
    rw [fetchInlineImageData, List.filterMap_cons]
    cases hres : resolveInlineImage oracle p <;> simp [hres, ih]

/-! ## Claim theorems -/

/-- C7: body extraction never throws.  When the transport pipeline
(`atob`/`escape`/`decodeURIComponent`) fails on the normalized input,
`decodeBase64` returns the empty string instead of propagating the exception;
and a payload with no parts and no root body data normalizes to an
empty-string body. -/
theorem decode_failure_yields_empty :
    (∀ s : Str, decodeTransport (b64urlNormalize s) = none → decodeBase64 s = []) ∧
    (∀ m f h b, b.data = none → extractBody (.mk m f h b .nil) = []) := by
  constructor
  · intro s hfail
    unfold decodeBase64
    split
    · rfl
    · rw [hfail]
  · intro m f h b hdata
    unfold extractBody
    simp [MessagePart.body, MessagePart.mimeType, MessagePart.parts, hdata, truthyStr,
      findBodyParts]

/-- Witness for C7 at concrete inputs: `"!!"` is rejected by base64 decoding,
and an empty payload yields the empty body. -/
theorem decode_failure_yields_empty_witness :
    decodeTransport (b64urlNormalize "!!".toList) = none ∧
    decodeBase64 "!!".toList = [] ∧
    extractBody (.mk "text/plain".toList [] none {} .nil) = [] :=
  ⟨by decide, decode_failure_yields_empty.1 "!!".toList (by decide),
    decode_failure_yields_empty.2 "text/plain".toList [] none {} rfl⟩

theorem findAttachments_eq_preorder (l : PartList) :
    findAttachments l = (preorder l).filterMap attachmentOf := by
  match l with
  | .nil => rfl
  | .cons (.mk m f h b sub) rest =>
    rw [findAttachments, preorder, List.filterMap_cons, List.filterMap_append,
      ← findAttachments_eq_preorder sub, ← findAttachments_eq_preorder rest]
    unfold attachmentOf
    simp only [MessagePart.body, MessagePart.filename, MessagePart.mimeType]
    split
    · simp
    · simp

/-- C9 counterexample: a root payload part that itself carries a truthy
attachment id and a non-empty filename yields no attachment descriptor, so
the claim's "including the root payload part itself" fails on the code. -/
theorem extractAttachments_root_ignored :
    truthyStr rootAttachPayload.body.attachmentId = true ∧
    rootAttachPayload.filename ≠ [] ∧
    extractAttachments rootAttachPayload = [] := by
  refine ⟨by decide, by decide, by decide⟩

/-- C9 (amended): every part at any depth strictly below the root — the root
payload part itself is never inspected — whose body carries a truthy
attachment id and whose filename is non-empty yields exactly one descriptor
per occurrence, in depth-first pre-order traversal order, duplicates
included: the result is exactly the filter-map of the descriptor function
over the pre-order flattening of the root's children. -/
theorem extractAttachments_preorder (payload : MessagePart) :
    extractAttachments payload = (preorder payload.parts).filterMap attachmentOf :=
  findAttachments_eq_preorder _

/-- C10 counterexample: a message whose only subject header is spelled
`subject` resolves to the fallback despite the lowercase name matching
`Subject` case-insensitively, so header matching is not case-insensitive. -/
theorem header_lookup_case_sensitive_cex :
    (formatEmailMessage rawLowerSubject).map (fun f => f.email.headers.subject) =
      some "(No Subject)".toList ∧
    ("subject".toList.map Char.toLower = "Subject".toList.map Char.toLower) ∧
    "(No Subject)".toList ≠ "Hi".toList := by
  refine ⟨by decide, by decide, by decide⟩

/-- C10 (amended): header resolution matches names exactly and
case-sensitively (first match wins), and when the header is absent — or
present with an empty value — the resolved field falls back to
`(No Subject)` for the subject and `(Unknown Sender)` for the sender. -/
theorem formatEmailMessage_header_resolution (raw : RawMessage) (payload : MessagePart)
    (hs : List (Str × Str)) (hp : raw.payload = some payload)
    (hh : payload.headers = some hs) :
    ∃ fm, formatEmailMessage raw = some fm ∧
      fm.email.headers.subject =
        (match lookupHeaderExact hs "Subject".toList with
         | some v => if v = [] then "(No Subject)".toList else v
         | none => "(No Subject)".toList) ∧
      fm.email.headers.sender =
        (match lookupHeaderExact hs "From".toList with
         | some v => if v = [] then "(Unknown Sender)".toList else v
         | none => "(Unknown Sender)".toList) := by
  have hfm : formatEmailMessage raw = some
      { email :=
          { id := raw.id, threadId := raw.threadId, snippet := raw.snippet,
            body := some (extractBody payload),
            labelIds := some (raw.labelIds.getD []),
            attachments := some (extractAttachments payload),
            inlineImages := some [],
            headers :=
              { subject := jsOrStr (getHeaderVal hs "Subject".toList) "(No Subject)".toList,
                sender := jsOrStr (getHeaderVal hs "From".toList) "(Unknown Sender)".toList,
                to' := jsOrStr (getHeaderVal hs "To".toList) "(Unknown Recipient)".toList,
                date := getHeaderVal hs "Date".toList } },
        inlineImageParts := extractInlineImageParts payload } := by
    simp [formatEmailMessage, hp, hh]
  refine ⟨_, hfm, ?_, ?_⟩
  · show jsOrStr (getHeaderVal hs "Subject".toList) "(No Subject)".toList = _
    unfold getHeaderVal lookupHeaderExact jsOrStr
    cases hs.find? (fun h => decide (h.1 = "Subject".toList)) <;> simp
  · show jsOrStr (getHeaderVal hs "From".toList) "(Unknown Sender)".toList = _
    unfold getHeaderVal lookupHeaderExact jsOrStr
    cases hs.find? (fun h => decide (h.1 = "From".toList)) <;> simp

/-- Witness for the amended C10 at a concrete message with ordinary header
spellings. -/
theorem formatEmailMessage_header_resolution_witness :
    ∃ fm, formatEmailMessage rawPlainMessage = some fm ∧
      fm.email.headers.subject =
        (match lookupHeaderExact
            [("Subject".toList, "Hello".toList), ("From".toList, "a@b.c".toList)]
            "Subject".toList with
         | some v => if v = [] then "(No Subject)".toList else v
         | none => "(No Subject)".toList) ∧
      fm.email.headers.sender =
        (match lookupHeaderExact
            [("Subject".toList, "Hello".toList), ("From".toList, "a@b.c".toList)]
            "From".toList with
         | some v => if v = [] then "(Unknown Sender)".toList else v
         | none => "(Unknown Sender)".toList) :=
  formatEmailMessage_header_resolution rawPlainMessage _ _ rfl rfl

/-- C6: a failed fetch of one inline-image candidate (non-OK response or
thrown error, both of which make its resolution `none`) only omits that
single image: the loop is a filter-map, so the other candidates resolve
independently and in order, and `processInlineImages` still returns the same
message with the resolved list attached. -/
theorem inline_image_failure_isolated :
    (∀ (oracle : Str → FetchOutcome) (l : List InlineImagePart),
      fetchInlineImageData oracle l = l.filterMap (resolveInlineImage oracle)) ∧
    (∀ (oracle : Str → FetchOutcome) (xs ys : List InlineImagePart)
      (bad : InlineImagePart), resolveInlineImage oracle bad = none →
      fetchInlineImageData oracle (xs ++ bad :: ys) =
        fetchInlineImageData oracle xs ++ fetchInlineImageData oracle ys) ∧
    (∀ (oracle : Str → FetchOutcome) (fm : FormattedEmailWithParts),
      (processInlineImages oracle fm).id = fm.email.id ∧
      (processInlineImages oracle fm).headers = fm.email.headers ∧
      (fm.inlineImageParts ≠ [] →
        (processInlineImages oracle fm).inlineImages =
          some (fetchInlineImageData oracle fm.inlineImageParts))) := by
  refine ⟨fetchInlineImageData_filterMap, ?_, ?_⟩
  · intro oracle xs ys bad hbad
    rw [fetchInlineImageData_filterMap, fetchInlineImageData_filterMap,
      fetchInlineImageData_filterMap, List.filterMap_append, List.filterMap_cons, hbad]
  · intro oracle fm
    unfold processInlineImages
    split
    · rename_i hnil
      exact ⟨rfl, rfl, fun hne => absurd hnil hne⟩
    · exact ⟨rfl, rfl, fun _ => rfl⟩

/-- Witness for C6: with an oracle that throws on attachment `bad`, the middle
candidate is omitted and the flanking candidates survive in order. -/
theorem inline_image_failure_isolated_witness :
    fetchInlineImageData
        (fun a => if a = "bad".toList then .threw else .ok "QUJD".toList)
        [{ contentId := "c1".toList, mimeType := "image/png".toList, data := some "AA".toList },
         { contentId := "c2".toList, mimeType := "image/png".toList,
           attachmentId := some "bad".toList },
         { contentId := "c3".toList, mimeType := "image/gif".toList,
           attachmentId := some "ok".toList }] =
      fetchInlineImageData
        (fun a => if a = "bad".toList then .threw else .ok "QUJD".toList)
        [{ contentId := "c1".toList, mimeType := "image/png".toList, data := some "AA".toList }] ++
      fetchInlineImageData
        (fun a => if a = "bad".toList then .threw else .ok "QUJD".toList)
        [{ contentId := "c3".toList, mimeType := "image/gif".toList,
           attachmentId := some "ok".toList }] :=
  inline_image_failure_isolated.2.1 _
    [{ contentId := "c1".toList, mimeType := "image/png".toList, data := some "AA".toList }]
    [{ contentId := "c3".toList, mimeType := "image/gif".toList,
       attachmentId := some "ok".toList }]
    { contentId := "c2".toList, mimeType := "image/png".toList,
      attachmentId := some "bad".toList }
    (by decide)

/-- C5 counterexample: a monthly rule carrying both an ordinal weekday token
and a month-day list ends with `monthlyType = dayOfMonth`, because the
byMonthDay block runs unconditionally after the ordinal block; the claim
required `dayOfWeek` for every such rule. -/
theorem rruleToUIState_monthly_cex :
    (rruleToUIState "FREQ=MONTHLY;BYDAY=1MO;BYMONTHDAY=15".toList).monthlyType =
      MonthlyType.dayOfMonth ∧
    (parseRRule "FREQ=MONTHLY;BYDAY=1MO;BYMONTHDAY=15".toList).map RecurrenceRule.byDay =
      some (some ["1MO".toList]) ∧
    (parseRRule "FREQ=MONTHLY;BYDAY=1MO;BYMONTHDAY=15".toList).map RecurrenceRule.byMonthDay =
      some (some [.int 15]) ∧
    isOrdinalTok "1MO".toList = true ∧
    MonthlyType.dayOfMonth ≠ MonthlyType.dayOfWeek := by
  refine ⟨by decide, by decide, by decide, by decide, by decide⟩

/-- C5 (amended): bare two-letter tokens among `byDay` populate `weeklyDays`;
the first ordinal-prefixed token populates the monthly-by-weekday fields; a
non-empty `byMonthDay` sets `monthlyType = dayOfMonth` with the first value
unconditionally — overriding an ordinal token — so `monthlyType = dayOfWeek`
survives only when an ordinal token was found and `byMonthDay` is absent or
empty. -/
theorem applyEnd_preserves (ct : Option JsNum) (ut : Option Str) (st : RecurrenceUIState) :
    (applyEnd ct ut st).weeklyDays = st.weeklyDays ∧
    (applyEnd ct ut st).monthlyType = st.monthlyType ∧
    (applyEnd ct ut st).monthlyDayOfMonth = st.monthlyDayOfMonth ∧
    (applyEnd ct ut st).monthlyWeekOrdinal = st.monthlyWeekOrdinal ∧
    (applyEnd ct ut st).monthlyWeekDay = st.monthlyWeekDay := by
  unfold applyEnd
  split
  · simp
  · split
    · split <;> simp
    · simp

theorem applyByMonthDay_preserves (bmd : Option (List JsNum)) (st : RecurrenceUIState) :
    (applyByMonthDay bmd st).weeklyDays = st.weeklyDays ∧
    (applyByMonthDay bmd st).monthlyWeekOrdinal = st.monthlyWeekOrdinal ∧
    (applyByMonthDay bmd st).monthlyWeekDay = st.monthlyWeekDay := by
  unfold applyByMonthDay
  split
  · split <;> simp
  · simp

theorem applyByMonthDay_sets (l : List JsNum) (hl : l ≠ []) (st : RecurrenceUIState) :
    (applyByMonthDay (some l) st).monthlyType = .dayOfMonth ∧
    (applyByMonthDay (some l) st).monthlyDayOfMonth = l.headD .nan := by
  unfold applyByMonthDay
  simp [hl]

theorem applyByMonthDay_id (bmd : Option (List JsNum))
    (h : bmd = none ∨ bmd = some []) (st : RecurrenceUIState) :
    applyByMonthDay bmd st = st := by
  rcases h with rfl | rfl <;> simp [applyByMonthDay]

theorem applyByDay_weekly (bd : Option (List Str)) (st : RecurrenceUIState)
    (h0 : st.weeklyDays = []) :
    (applyByDay bd st).weeklyDays = (bd.getD []).filter isSimpleTok := by
  unfold applyByDay
  rcases bd with _ | l
  · simpa using h0
  · by_cases hl : l = []
    · subst hl
      simpa using h0
    · simp only [hl, ne_eq, not_false_eq_true, if_true, Option.getD_some]
      by_cases hsd : l.filter isSimpleTok = []
      · simp only [hsd, ne_eq, not_true_eq_false, if_false]
        split
        · split
          · simpa [hsd] using h0
          · simpa [hsd] using h0
        · simpa [hsd] using h0
      · simp only [hsd, ne_eq, not_false_eq_true, if_true]
        split
        · split
          · simp
          · simp
        · simp

theorem applyByDay_ordinal (bd : Option (List Str)) (st : RecurrenceUIState) :
    (match (bd.getD []).find? isOrdinalTok with
     | some t => ∃ o w, splitOrdinal t = some (o, w) ∧
         (applyByDay bd st).monthlyType = .dayOfWeek ∧
         (applyByDay bd st).monthlyWeekOrdinal = o ∧
         (applyByDay bd st).monthlyWeekDay = w
     | none => (applyByDay bd st).monthlyType = st.monthlyType ∧
         (applyByDay bd st).monthlyWeekOrdinal = st.monthlyWeekOrdinal ∧
         (applyByDay bd st).monthlyWeekDay = st.monthlyWeekDay) := by
  unfold applyByDay
  rcases bd with _ | l
  · simp
  · by_cases hl : l = []
    · subst hl
      simp
    · simp only [hl, ne_eq, not_false_eq_true, if_true, Option.getD_some]
      cases hfind : l.find? isOrdinalTok with
      | none =>
        simp only [hfind]
        split <;> simp
      | some t =>
        have hord : isOrdinalTok t = true := List.find?_some hfind
        rw [isOrdinalTok, Option.isSome_iff_exists] at hord
        obtain ⟨⟨o, w⟩, hsplit⟩ := hord
        simp only [hfind, hsplit]
        exact ⟨o, w, rfl, by simp, by simp, by simp⟩

/-- C5 (amended): bare two-letter tokens among `byDay` populate `weeklyDays`;
the first ordinal-prefixed token populates the monthly-by-weekday fields; a
non-empty `byMonthDay` sets `monthlyType = dayOfMonth` with the first value
unconditionally — overriding an ordinal token — so `monthlyType = dayOfWeek`
survives only when an ordinal token was found and `byMonthDay` is absent or
empty. -/
theorem rruleToUIState_fields (s : Str) (rule : RecurrenceRule) (hne : s ≠ [])
    (h : parseRRule s = some rule) :
    (rruleToUIState s).weeklyDays = (rule.byDay.getD []).filter isSimpleTok ∧
    (match (rule.byDay.getD []).find? isOrdinalTok with
     | some t => ∃ o w, splitOrdinal t = some (o, w) ∧
         (rruleToUIState s).monthlyWeekOrdinal = o ∧ (rruleToUIState s).monthlyWeekDay = w
     | none => (rruleToUIState s).monthlyWeekOrdinal = .int 1 ∧
         (rruleToUIState s).monthlyWeekDay = "MO".toList) ∧
    (∀ l, rule.byMonthDay = some l → l ≠ [] →
      (rruleToUIState s).monthlyType = .dayOfMonth ∧
      (rruleToUIState s).monthlyDayOfMonth = l.headD .nan) ∧
    ((rule.byMonthDay = none ∨ rule.byMonthDay = some []) →
      ∀ t, (rule.byDay.getD []).find? isOrdinalTok = some t →
        (rruleToUIState s).monthlyType = .dayOfWeek) := by
  have hst : rruleToUIState s =
      applyEnd rule.count rule.until'
        (applyByMonthDay rule.byMonthDay (applyByDay rule.byDay (uiStateBase rule))) := by
    unfold rruleToUIState
    rw [if_neg hne, h]
  set st0 := uiStateBase rule with hst0
  have h0w : st0.weeklyDays = [] := rfl
  have h0o : st0.monthlyWeekOrdinal = .int 1 := rfl
  have h0d : st0.monthlyWeekDay = "MO".toList := rfl
  refine ⟨?_, ?_, ?_, ?_⟩
  · rw [hst, (applyEnd_preserves _ _ _).1, (applyByMonthDay_preserves _ _).1]
    exact applyByDay_weekly _ _ h0w
  · have hord := applyByDay_ordinal rule.byDay st0
    cases hfind : (rule.byDay.getD []).find? isOrdinalTok with
    | some t =>
      rw [hfind] at hord
      obtain ⟨o, w, hsplit, _, ho, hw⟩ := hord
      refine ⟨o, w, hsplit, ?_, ?_⟩
      · rw [hst, (applyEnd_preserves _ _ _).2.2.2.1, (applyByMonthDay_preserves _ _).2.1, ho]
      · rw [hst, (applyEnd_preserves _ _ _).2.2.2.2, (applyByMonthDay_preserves _ _).2.2, hw]
    | none =>
      rw [hfind] at hord
      constructor
      · rw [hst, (applyEnd_preserves _ _ _).2.2.2.1, (applyByMonthDay_preserves _ _).2.1,
          hord.2.1, h0o]
      · rw [hst, (applyEnd_preserves _ _ _).2.2.2.2, (applyByMonthDay_preserves _ _).2.2,
          hord.2.2, h0d]
  · intro l hbmd hl
    rw [hst, hbmd]
    constructor
    · rw [(applyEnd_preserves _ _ _).2.1, (applyByMonthDay_sets l hl _).1]
    · rw [(applyEnd_preserves _ _ _).2.2.1, (applyByMonthDay_sets l hl _).2]
  · intro hor t hfind
    have hord := applyByDay_ordinal rule.byDay st0
    rw [hfind] at hord
    obtain ⟨o, w, _, hty, _, _⟩ := hord
    rw [hst, (applyEnd_preserves _ _ _).2.1, applyByMonthDay_id _ hor, hty]


theorem toUpper_eq_eq (c : Char) : Char.toUpper c = '=' ↔ c = '=' := by
  constructor
  · intro h
    simp only [Char.toUpper] at h
    split at h
    · rename_i hr
      have hv : (Char.ofNat (c.toNat - 32)).toNat = c.toNat - 32 :=
        char_toNat_ofNat _ (by omega)
      have h61 := congrArg Char.toNat h
      rw [hv] at h61
      have h2 : ('=' : Char).toNat = 61 := rfl
      omega
    · exact h
  · intro h
    subst h
    decide

theorem toUpper_idem (c : Char) : (Char.toUpper c).toUpper = Char.toUpper c := by
  simp only [Char.toUpper]
  split
  · rename_i hr
    have hv : (Char.ofNat (c.toNat - 32)).toNat = c.toNat - 32 :=
      char_toNat_ofNat _ (by omega)
    rw [if_neg (by omega)]
  · rfl

theorem mem_eq_map_toUpper (key : Str) : '=' ∈ key.map Char.toUpper ↔ '=' ∈ key := by
  constructor
  · intro h
    obtain ⟨c, hc, heq⟩ := List.mem_map.1 h
    exact ((toUpper_eq_eq c).1 heq) ▸ hc
  · intro h
    exact List.mem_map.2 ⟨'=', h, by decide⟩

theorem splitOn_clause (key tail : Str) (hk : '=' ∉ key) :
    (key ++ '=' :: tail).splitOn '=' = key :: tail.splitOn '=' := by
  unfold List.splitOn
  exact List.splitOnP_first _ key
    (fun c hc => by simp only [beq_iff_eq]; rintro rfl; exact hk hc) '=' (by simp) tail

theorem splitOn_single (s : Str) (h : '=' ∉ s) : s.splitOn '=' = [s] := by
  unfold List.splitOn
  exact List.splitOnP_eq_single _ _
    (fun c hc => by simp only [beq_iff_eq]; rintro rfl; exact h hc)

/-- Witness for the amended C5 at a concrete monthly rule with a bare and an
ordinal weekday token. -/
theorem rruleToUIState_fields_witness :
    (rruleToUIState "FREQ=MONTHLY;BYDAY=MO,2WE".toList).weeklyDays = ["MO".toList] := by
  have h := rruleToUIState_fields "FREQ=MONTHLY;BYDAY=MO,2WE".toList
      { freq := "MONTHLY".toList, byDay := some ["MO".toList, "2WE".toList] }
      (by decide) (by decide)
  rw [h.1]
  decide

/-- C8 counterexample: a clause whose value contains `=` does not keep the
full remainder after the first `=`; only the segment between the first and
second `=` is stored, the rest is discarded. -/
theorem parseRRule_clause_remainder_cex :
    (parseRRule "FREQ=DAILY;UNTIL=20240101=X".toList).map RecurrenceRule.until' =
      some (some "20240101".toList) ∧
    some (some "20240101".toList) ≠ some (some "20240101=X".toList) := by
  refine ⟨by decide, by decide⟩

/-- C8 (amended): the parser strips an optional case-insensitive `RRULE:`
prefix, splits the remainder on `;`, splits each clause on `=` keeping the
first two segments as key and value (text after a second `=` is discarded),
uppercases the key for dispatch, silently ignores unrecognized keys, and
returns no rule when no frequency clause was populated. -/
theorem parseRRule_algorithm :
    (∀ p rest : Str, p.map Char.toUpper = "RRULE:".toList →
        parseRRule (p ++ rest) = parseRRule ("RRULE:".toList ++ rest)) ∧
    (∀ (r : PartialRule) (key v w : Str), '=' ∉ key → '=' ∉ v →
        stepClause r (key ++ '=' :: (v ++ '=' :: w)) = stepClause r (key ++ '=' :: v)) ∧
    (∀ (r : PartialRule) (key value : Str), '=' ∉ key →
        stepClause r (key.map Char.toUpper ++ '=' :: value) =
          stepClause r (key ++ '=' :: value)) ∧
    (∀ (r : PartialRule) (key value : Str), '=' ∉ key →
        key.map Char.toUpper ∉ knownKeys → stepClause r (key ++ '=' :: value) = r) ∧
    (∀ s : Str,
        (((stripRRulePrefix s).splitOn ';').foldl stepClause {}).freq = none →
        parseRRule s = none) := by
  refine ⟨?_, ?_, ?_, ?_, ?_⟩
  · intro p rest hp
    have hlen : p.length = 6 := by
      have := congrArg List.length hp
      simpa using this
    have hne1 : p ++ rest ≠ [] := by
      intro hcon
      have := congrArg List.length hcon
      simp [hlen] at this
    have hstrip1 : stripRRulePrefix (p ++ rest) = rest := by
      unfold stripRRulePrefix
      rw [if_pos, ← hlen, List.drop_left]
      rw [← hlen, List.take_left, hp]
    have hstrip2 : stripRRulePrefix ("RRULE:".toList ++ rest) = rest := by
      unfold stripRRulePrefix
      rw [if_pos]
      · show List.drop ("RRULE:".toList.length) _ = rest
        rw [List.drop_left]
      · show (("RRULE:".toList ++ rest).take ("RRULE:".toList.length)).map _ = _
        rw [List.take_left]
        decide
    unfold parseRRule
    rw [if_neg hne1, if_neg (by simp), hstrip1, hstrip2]
  · intro r key v w hk hv
    unfold stepClause
    rw [splitOn_clause key (v ++ '=' :: w) hk, splitOn_clause key v hk,
      splitOn_clause v w hv, splitOn_single v hv]
  · intro r key value hk
    obtain ⟨v1, vt, hv⟩ := List.exists_cons_of_ne_nil (List.splitOnP_ne_nil _ value)
    unfold stepClause
    rw [splitOn_clause key _ hk,
      splitOn_clause _ _ (fun hm => hk ((mem_eq_map_toUpper key).1 hm))]
    show (match (key.map Char.toUpper) :: value.splitOn '=' with
      | _ :: _ :: _ => _ | _ => _) = _
    rw [show value.splitOn '=' = v1 :: vt from hv]
    have hmapmap : (key.map Char.toUpper).map Char.toUpper = key.map Char.toUpper := by
      rw [List.map_map]
      exact List.map_congr_left (fun c _ => toUpper_idem c)
    have hnil : key.map Char.toUpper = [] ↔ key = [] := by simp
    simp only [hmapmap, hnil]
  · intro r key value hk hunknown
    obtain ⟨v1, vt, hv⟩ := List.exists_cons_of_ne_nil (List.splitOnP_ne_nil _ value)
    unfold stepClause
    rw [splitOn_clause key _ hk, show value.splitOn '=' = v1 :: vt from hv]
    by_cases hke : key = []
    · simp [hke]
    · by_cases hve : v1 = []
      · simp [hve]
      · simp only [hke, hve, or_self, if_false, false_or]
        simp only [knownKeys, List.mem_cons, List.mem_singleton, not_or] at hunknown
        obtain ⟨h1, h2, h3, h4, h5, h6, h7, h8, h9, _⟩ := hunknown
        simp only [h1, h2, h3, h4, h5, h6, h7, h8, h9, if_false]
  · intro s hfreq
    unfold parseRRule mkParsedRule
    split
    · rfl
    · simp only [hfreq]

/-- Witness for the amended C8: the lowercase prefix parses like the
uppercase one on a concrete rule string. -/
theorem parseRRule_algorithm_witness :
    parseRRule ("rrule:".toList ++ "FREQ=DAILY".toList) =
      parseRRule ("RRULE:".toList ++ "FREQ=DAILY".toList) :=
  parseRRule_algorithm.1 "rrule:".toList "FREQ=DAILY".toList (by decide)

theorem stepClause_FREQ (r : PartialRule) (v : Str) (hv : '=' ∉ v) (hvne : v ≠ []) :
    stepClause r ("FREQ=".toList ++ v) = { r with freq := some (v.map Char.toUpper) } := by
  rw [show "FREQ=".toList ++ v = "FREQ".toList ++ '=' :: v from rfl]
  unfold stepClause
  rw [splitOn_clause _ _ (by decide), splitOn_single v hv]
  simp [hvne]

theorem stepClause_INTERVAL (r : PartialRule) (v : Str) (hv : '=' ∉ v) (hvne : v ≠ []) :
    stepClause r ("INTERVAL=".toList ++ v) = { r with interval := some (jsParseInt v) } := by
  rw [show "INTERVAL=".toList ++ v = "INTERVAL".toList ++ '=' :: v from rfl]
  unfold stepClause
  rw [splitOn_clause _ _ (by decide), splitOn_single v hv]
  simp [hvne]

theorem stepClause_COUNT (r : PartialRule) (v : Str) (hv : '=' ∉ v) (hvne : v ≠ []) :
    stepClause r ("COUNT=".toList ++ v) = { r with count := some (jsParseInt v) } := by
  rw [show "COUNT=".toList ++ v = "COUNT".toList ++ '=' :: v from rfl]
  unfold stepClause
  rw [splitOn_clause _ _ (by decide), splitOn_single v hv]
  simp [hvne]

theorem stepClause_UNTIL (r : PartialRule) (v : Str) (hv : '=' ∉ v) (hvne : v ≠ []) :
    stepClause r ("UNTIL=".toList ++ v) = { r with until' := some v } := by
  rw [show "UNTIL=".toList ++ v = "UNTIL".toList ++ '=' :: v from rfl]
  unfold stepClause
  rw [splitOn_clause _ _ (by decide), splitOn_single v hv]
  simp [hvne]

theorem stepClause_BYDAY (r : PartialRule) (v : Str) (hv : '=' ∉ v) (hvne : v ≠ []) :
    stepClause r ("BYDAY=".toList ++ v) = { r with byDay := some (v.splitOn ',') } := by
  rw [show "BYDAY=".toList ++ v = "BYDAY".toList ++ '=' :: v from rfl]
  unfold stepClause
  rw [splitOn_clause _ _ (by decide), splitOn_single v hv]
  simp [hvne]

theorem stepClause_BYMONTHDAY (r : PartialRule) (v : Str) (hv : '=' ∉ v) (hvne : v ≠ []) :
    stepClause r ("BYMONTHDAY=".toList ++ v) =
      { r with byMonthDay := some ((v.splitOn ',').map jsParseInt) } := by
  rw [show "BYMONTHDAY=".toList ++ v = "BYMONTHDAY".toList ++ '=' :: v from rfl]
  unfold stepClause
  rw [splitOn_clause _ _ (by decide), splitOn_single v hv]
  simp [hvne]

theorem stepClause_BYMONTH (r : PartialRule) (v : Str) (hv : '=' ∉ v) (hvne : v ≠ []) :
    stepClause r ("BYMONTH=".toList ++ v) =
      { r with byMonth := some ((v.splitOn ',').map jsParseInt) } := by
  rw [show "BYMONTH=".toList ++ v = "BYMONTH".toList ++ '=' :: v from rfl]
  unfold stepClause
  rw [splitOn_clause _ _ (by decide), splitOn_single v hv]
  simp [hvne]

theorem stepClause_BYSETPOS (r : PartialRule) (v : Str) (hv : '=' ∉ v) (hvne : v ≠ []) :
    stepClause r ("BYSETPOS=".toList ++ v) =
      { r with bySetPos := some ((v.splitOn ',').map jsParseInt) } := by
  rw [show "BYSETPOS=".toList ++ v = "BYSETPOS".toList ++ '=' :: v from rfl]
  unfold stepClause
  rw [splitOn_clause _ _ (by decide), splitOn_single v hv]
  simp [hvne]

theorem stepClause_WKST (r : PartialRule) (v : Str) (hv : '=' ∉ v) (hvne : v ≠ []) :
    stepClause r ("WKST=".toList ++ v) = { r with wkst := some v } := by
  rw [show "WKST=".toList ++ v = "WKST".toList ++ '=' :: v from rfl]
  unfold stepClause
  rw [splitOn_clause _ _ (by decide), splitOn_single v hv]
  simp [hvne]

theorem mem_intercalate_single (x : Char) (l : List Str) (c : Char)
    (hc : c ∈ [x].intercalate l) : c = x ∨ ∃ t ∈ l, c ∈ t := by
  induction l with
  | nil => simp [List.intercalate] at hc
  | cons a t ih =>
    cases t with
    | nil =>
      simp [List.intercalate] at hc
      exact Or.inr ⟨a, by simp, hc⟩
    | cons b t2 =>
      rw [List.intercalate, List.intersperse_cons_cons, List.flatten_cons,
        List.flatten_cons] at hc
      rcases List.mem_append.1 hc with h1 | h12
      · exact Or.inr ⟨a, by simp, h1⟩
      · rcases List.mem_append.1 h12 with h2 | h3
        · simp at h2
          exact Or.inl h2
        · rcases ih (by rw [List.intercalate]; exact h3) with h | ⟨t', ht', hct⟩
          · exact Or.inl h
          · exact Or.inr ⟨t', by simp [ht'], hct⟩

theorem intercalate_single_ne_nil (x : Char) (l : List Str) (hl : l ≠ [])
    (hhead : ∀ t ∈ l, t ≠ []) : [x].intercalate l ≠ [] := by
  cases l with
  | nil => exact absurd rfl hl
  | cons a t =>
    cases t with
    | nil =>
      simp [List.intercalate]
      exact hhead a (by simp)
    | cons b t2 =>
      rw [List.intercalate, List.intersperse_cons_cons, List.flatten_cons]
      intro hcon
      rcases List.append_eq_nil.1 hcon with ⟨ha, _⟩
      exact hhead a (by simp) ha

theorem intToChars_ne_nil (n : Int) : intToChars n ≠ [] := by
  unfold intToChars
  split
  · simp
  · exact natToChars_ne_nil _

theorem intToChars_no_eq (n : Int) : '=' ∉ intToChars n :=
  (cleanStr_not_mem _ (intToChars_clean n)).2.1

theorem intToChars_no_semi (n : Int) : ';' ∉ intToChars n :=
  (cleanStr_not_mem _ (intToChars_clean n)).1

theorem intToChars_no_comma (n : Int) : ',' ∉ intToChars n :=
  (cleanStr_not_mem _ (intToChars_clean n)).2.2

theorem fold_intervalSeg (r : RecurrenceRule) (h : WellFormedRule r) (acc : PartialRule)
    (hacc : acc.interval = none) :
    List.foldl stepClause acc
      (match r.interval with
       | some (.int n) => if 1 < n then ["INTERVAL=".toList ++ intToChars n] else []
       | _ => []) =
    { acc with interval :=
        match r.interval with
        | some (.int n) => if 1 < n then some (JsNum.int n) else none
        | _ => none } := by
  rcases hi : r.interval with _ | j
  · rw [show ({ acc with interval := none } : PartialRule) = { acc with interval := acc.interval }
      from by rw [hacc]]
    rfl
  · obtain ⟨n, rfl, _, _⟩ := h.interval_ok j (by rw [hi]; rfl)
    by_cases h1 : 1 < n
    · simp only [if_pos h1, List.foldl_cons, List.foldl_nil,
        stepClause_INTERVAL acc (intToChars n) (intToChars_no_eq n) (intToChars_ne_nil n),
        jsParseInt_intToChars]
    · simp only [if_neg h1, List.foldl_nil]
      rw [← hacc]

theorem fold_countSeg (r : RecurrenceRule) (h : WellFormedRule r) (acc : PartialRule)
    (hacc : acc.count = none) :
    List.foldl stepClause acc
      (match r.count with
       | some (.int n) => if n ≠ 0 then ["COUNT=".toList ++ intToChars n] else []
       | _ => []) =
    { acc with count := r.count } := by
  rcases hc : r.count with _ | j
  · rw [show ({ acc with count := none } : PartialRule) = { acc with count := acc.count }
      from by rw [hacc]]
    rfl
  · obtain ⟨n, rfl, hpos, _⟩ := h.count_ok j (by rw [hc]; rfl)
    simp only [if_pos (show n ≠ 0 by omega), List.foldl_cons, List.foldl_nil,
      stepClause_COUNT acc (intToChars n) (intToChars_no_eq n) (intToChars_ne_nil n),
      jsParseInt_intToChars]

theorem fold_untilSeg (r : RecurrenceRule) (h : WellFormedRule r) (acc : PartialRule)
    (hacc : acc.until' = none) :
    List.foldl stepClause acc
      (match r.until' with
       | some u => if u ≠ [] then ["UNTIL=".toList ++ u] else []
       | none => []) =
    { acc with until' := r.until' } := by
  rcases hu : r.until' with _ | u
  · rw [show ({ acc with until' := none } : PartialRule) = { acc with until' := acc.until' }
      from by rw [hacc]]
    rfl
  · obtain ⟨hne, hclean⟩ := h.until_ok u (by rw [hu]; rfl)
    simp only [if_pos hne, List.foldl_cons, List.foldl_nil,
      stepClause_UNTIL acc u (cleanStr_not_mem _ hclean).2.1 hne]

theorem fold_wkstSeg (r : RecurrenceRule) (h : WellFormedRule r) (acc : PartialRule)
    (hacc : acc.wkst = none) :
    List.foldl stepClause acc
      (match r.wkst with
       | some w => if w ≠ [] then ["WKST=".toList ++ w] else []
       | none => []) =
    { acc with wkst := r.wkst } := by
  rcases hw : r.wkst with _ | w
  · rw [show ({ acc with wkst := none } : PartialRule) = { acc with wkst := acc.wkst }
      from by rw [hacc]]
    rfl
  · obtain ⟨hne, hclean⟩ := h.wkst_ok w (by rw [hw]; rfl)
    simp only [if_pos hne, List.foldl_cons, List.foldl_nil,
      stepClause_WKST acc w (cleanStr_not_mem _ hclean).2.1 hne]

theorem fold_byDaySeg (r : RecurrenceRule) (h : WellFormedRule r) (acc : PartialRule)
    (hacc : acc.byDay = none) :
    List.foldl stepClause acc
      (match r.byDay with
       | some l => if l ≠ [] then ["BYDAY=".toList ++ [','].intercalate l] else []
       | none => []) =
    { acc with byDay := r.byDay } := by
  rcases hb : r.byDay with _ | l
  · rw [show ({ acc with byDay := none } : PartialRule) = { acc with byDay := acc.byDay }
      from by rw [hacc]]
    rfl
  · obtain ⟨hlne, htoks⟩ := h.byDay_ok l (by rw [hb]; rfl)
    have hvne : [','].intercalate l ≠ [] :=
      intercalate_single_ne_nil ',' l hlne (fun t ht => (htoks t ht).1)
    have hveq : '=' ∉ [','].intercalate l := by
      intro hm
      rcases mem_intercalate_single ',' l '=' hm with hx | ⟨t, ht, hct⟩
      · exact absurd hx (by decide)
      · exact (cleanStr_not_mem t (htoks t ht).2).2.1 hct
    simp only [if_pos hlne, List.foldl_cons, List.foldl_nil,
      stepClause_BYDAY acc ([','].intercalate l) hveq hvne]
    rw [List.splitOn_intercalate _ ','
      (fun t ht => (cleanStr_not_mem t (htoks t ht).2).2.2) hlne]

theorem numList_roundtrip (l : List JsNum) (hl : l ≠ [])
    (hints : ∀ j ∈ l, ∃ n : Int, j = .int n) :
    (([','].intercalate (l.map jsNumToChars)).splitOn ',').map jsParseInt = l := by
  rw [List.splitOn_intercalate _ ','
      (by
        intro t ht
        obtain ⟨j, hj, rfl⟩ := List.mem_map.1 ht
        obtain ⟨n, rfl⟩ := hints j hj
        exact intToChars_no_comma n)
      (by simpa using hl),
    List.map_map]
  have : ∀ j ∈ l, (jsParseInt ∘ jsNumToChars) j = j := by
    intro j hj
    obtain ⟨n, rfl⟩ := hints j hj
    exact jsParseInt_intToChars n
  rw [List.map_congr_left this]
  simp

theorem numList_value_facts (l : List JsNum) (hl : l ≠ [])
    (hints : ∀ j ∈ l, ∃ n : Int, j = .int n) :
    [','].intercalate (l.map jsNumToChars) ≠ [] ∧
      '=' ∉ [','].intercalate (l.map jsNumToChars) := by
  constructor
  · refine intercalate_single_ne_nil ',' _ (by simpa using hl) ?_
    intro t ht
    obtain ⟨j, hj, rfl⟩ := List.mem_map.1 ht
    obtain ⟨n, rfl⟩ := hints j hj
    exact intToChars_ne_nil n
  · intro hm
    rcases mem_intercalate_single ',' _ '=' hm with hx | ⟨t, ht, hct⟩
    · exact absurd hx (by decide)
    · obtain ⟨j, hj, rfl⟩ := List.mem_map.1 ht
      obtain ⟨n, rfl⟩ := hints j hj
      exact intToChars_no_eq n hct

theorem fold_byMonthDaySeg (r : RecurrenceRule) (h : WellFormedRule r) (acc : PartialRule)
    (hacc : acc.byMonthDay = none) :
    List.foldl stepClause acc
      (match r.byMonthDay with
       | some l =>
         if l ≠ [] then ["BYMONTHDAY=".toList ++ [','].intercalate (l.map jsNumToChars)] else []
       | none => []) =
    { acc with byMonthDay := r.byMonthDay } := by
  rcases hb : r.byMonthDay with _ | l
  · rw [show ({ acc with byMonthDay := none } : PartialRule) =
      { acc with byMonthDay := acc.byMonthDay } from by rw [hacc]]
    rfl
  · obtain ⟨hlne, hints⟩ := h.byMonthDay_ok l (by rw [hb]; rfl)
    have hints' : ∀ j ∈ l, ∃ n : Int, j = .int n := by
      intro j hj
      obtain ⟨n, hn, _⟩ := hints j hj
      exact ⟨n, hn⟩
    obtain ⟨hvne, hveq⟩ := numList_value_facts l hlne hints'
    simp only [if_pos hlne, List.foldl_cons, List.foldl_nil,
      stepClause_BYMONTHDAY acc ([','].intercalate (l.map jsNumToChars)) hveq hvne,
      numList_roundtrip l hlne hints']

theorem fold_byMonthSeg (r : RecurrenceRule) (h : WellFormedRule r) (acc : PartialRule)
    (hacc : acc.byMonth = none) :
    List.foldl stepClause acc
      (match r.byMonth with
       | some l =>
         if l ≠ [] then ["BYMONTH=".toList ++ [','].intercalate (l.map jsNumToChars)] else []
       | none => []) =
    { acc with byMonth := r.byMonth } := by
  rcases hb : r.byMonth with _ | l
  · rw [show ({ acc with byMonth := none } : PartialRule) =
      { acc with byMonth := acc.byMonth } from by rw [hacc]]
    rfl
  · obtain ⟨hlne, hints⟩ := h.byMonth_ok l (by rw [hb]; rfl)
    have hints' : ∀ j ∈ l, ∃ n : Int, j = .int n := by
      intro j hj
      obtain ⟨n, hn, _⟩ := hints j hj
      exact ⟨n, hn⟩
    obtain ⟨hvne, hveq⟩ := numList_value_facts l hlne hints'
    simp only [if_pos hlne, List.foldl_cons, List.foldl_nil,
      stepClause_BYMONTH acc ([','].intercalate (l.map jsNumToChars)) hveq hvne,
      numList_roundtrip l hlne hints']

theorem fold_bySetPosSeg (r : RecurrenceRule) (h : WellFormedRule r) (acc : PartialRule)
    (hacc : acc.bySetPos = none) :
    List.foldl stepClause acc
      (match r.bySetPos with
       | some l =>
         if l ≠ [] then ["BYSETPOS=".toList ++ [','].intercalate (l.map jsNumToChars)] else []
       | none => []) =
    { acc with bySetPos := r.bySetPos } := by
  rcases hb : r.bySetPos with _ | l
  · rw [show ({ acc with bySetPos := none } : PartialRule) =
      { acc with bySetPos := acc.bySetPos } from by rw [hacc]]
    rfl
  · obtain ⟨hlne, hints⟩ := h.bySetPos_ok l (by rw [hb]; rfl)
    have hints' : ∀ j ∈ l, ∃ n : Int, j = .int n := by
      intro j hj
      obtain ⟨n, hn, _⟩ := hints j hj
      exact ⟨n, hn⟩
    obtain ⟨hvne, hveq⟩ := numList_value_facts l hlne hints'
    simp only [if_pos hlne, List.foldl_cons, List.foldl_nil,
      stepClause_BYSETPOS acc ([','].intercalate (l.map jsNumToChars)) hveq hvne,
      numList_roundtrip l hlne hints']

theorem strip_prefix_concat (rest : Str) :
    stripRRulePrefix ("RRULE:".toList ++ rest) = rest := by
  unfold stripRRulePrefix
  rw [if_pos]
  · show List.drop ("RRULE:".toList.length) _ = rest
    rw [List.drop_left]
  · show (("RRULE:".toList ++ rest).take ("RRULE:".toList.length)).map _ = _
    rw [List.take_left]
    decide

theorem no_semi_append (k v : Str) (hk : ';' ∉ k) (hv : ';' ∉ v) : ';' ∉ k ++ v := by
  intro hm
  rcases List.mem_append.1 hm with hm | hm
  · exact hk hm
  · exact hv hm

/-- C2: for every well-formed structured rule, parsing the built RRULE string
succeeds and reproduces every explicitly-set non-default field: the
frequency, the interval when greater than one, the count, the until date and
the four token lists and week start. -/
theorem parse_build_roundtrip (r : RecurrenceRule) (h : WellFormedRule r) :
    ∃ rr : RecurrenceRule, parseRRule (buildRRule r) = some rr ∧
      rr.freq = r.freq ∧
      (∀ n : Int, r.interval = some (.int n) → 1 < n → rr.interval = r.interval) ∧
      rr.count = r.count ∧ rr.until' = r.until' ∧ rr.byDay = r.byDay ∧
      rr.byMonthDay = r.byMonthDay ∧ rr.byMonth = r.byMonth ∧
      rr.bySetPos = r.bySetPos ∧ rr.wkst = r.wkst := by
  have hfacts : r.freq ≠ [] ∧ '=' ∉ r.freq ∧ ';' ∉ r.freq ∧
      r.freq.map Char.toUpper = r.freq := by
    have hf := h.freq_valid
    simp only [List.mem_cons, List.mem_singleton] at hf
    rcases hf with hf | hf | hf | (hf | hf)
    · rw [hf]; exact ⟨by decide, by decide, by decide, by decide⟩
    · rw [hf]; exact ⟨by decide, by decide, by decide, by decide⟩
    · rw [hf]; exact ⟨by decide, by decide, by decide, by decide⟩
    · rw [hf]; exact ⟨by decide, by decide, by decide, by decide⟩
    · exact absurd hf (by simp)
  have hparse : parseRRule (buildRRule r) = some
      { freq := r.freq.map Char.toUpper,
        interval := match r.interval with
          | some (.int n) => if 1 < n then some (JsNum.int n) else none
          | _ => none,
        count := r.count, until' := r.until', byDay := r.byDay,
        byMonthDay := r.byMonthDay, byMonth := r.byMonth, bySetPos := r.bySetPos,
        wkst := r.wkst } := by
    unfold buildRRule parseRRule
    rw [if_neg (by
      intro hc
      have := congrArg List.length hc
      rw [List.length_append] at this
      simp at this)]
    rw [strip_prefix_concat]
    rw [List.splitOn_intercalate _ ';' ?hsemi ?hne]
    case hne =>
      intro hc
      have : (["FREQ=".toList ++ r.freq] : List Str) ≠ [] := by simp
      rcases List.append_eq_nil.1 (List.append_eq_nil.1 (List.append_eq_nil.1
        (List.append_eq_nil.1 (List.append_eq_nil.1 (List.append_eq_nil.1
          (List.append_eq_nil.1 (List.append_eq_nil.1 hc).1).1).1).1).1).1).1 with ⟨h1, _⟩
      exact this h1
    case hsemi =>
      intro part hp
      simp only [List.append_assoc, List.mem_append, List.mem_singleton] at hp
      rcases hp with hp | hp | hp | hp | hp | hp | hp | hp | hp
      · rw [hp]
        exact no_semi_append _ _ (by decide) hfacts.2.2.1
      · rcases hi : r.interval with _ | j
        · rw [hi] at hp; simp at hp
        · obtain ⟨n, rfl, _, _⟩ := h.interval_ok j (by rw [hi]; rfl)
          rw [hi] at hp
          by_cases h1 : 1 < n
          · simp only [if_pos h1, List.mem_singleton] at hp
            rw [hp]
            exact no_semi_append _ _ (by decide) (intToChars_no_semi n)
          · simp only [if_neg h1] at hp
            simp at hp
      · rcases hc : r.count with _ | j
        · rw [hc] at hp; simp at hp
        · obtain ⟨n, rfl, hpos, _⟩ := h.count_ok j (by rw [hc]; rfl)
          rw [hc] at hp
          simp only [if_pos (show n ≠ 0 by omega), List.mem_singleton] at hp
          rw [hp]
          exact no_semi_append _ _ (by decide) (intToChars_no_semi n)
      · rcases hu : r.until' with _ | u
        · rw [hu] at hp; simp at hp
        · obtain ⟨hne, hclean⟩ := h.until_ok u (by rw [hu]; rfl)
          rw [hu] at hp
          simp only [if_pos hne, List.mem_singleton] at hp
          rw [hp]
          exact no_semi_append _ _ (by decide) (cleanStr_not_mem _ hclean).1
      · rcases hb : r.byDay with _ | l
        · rw [hb] at hp; simp at hp
        · obtain ⟨hlne, htoks⟩ := h.byDay_ok l (by rw [hb]; rfl)
          rw [hb] at hp
          simp only [if_pos hlne, List.mem_singleton] at hp
          rw [hp]
          refine no_semi_append _ _ (by decide) ?_
          intro hm
          rcases mem_intercalate_single ',' l ';' hm with hx | ⟨t, ht, hct⟩
          · exact absurd hx (by decide)
          · exact (cleanStr_not_mem t (htoks t ht).2).1 hct
      · rcases hb : r.byMonthDay with _ | l
        · rw [hb] at hp; simp at hp
        · obtain ⟨hlne, hints⟩ := h.byMonthDay_ok l (by rw [hb]; rfl)
          rw [hb] at hp
          simp only [if_pos hlne, List.mem_singleton] at hp
          rw [hp]
          refine no_semi_append _ _ (by decide) ?_
          intro hm
          rcases mem_intercalate_single ',' _ ';' hm with hx | ⟨t, ht, hct⟩
          · exact absurd hx (by decide)
          · obtain ⟨j, hj, rfl⟩ := List.mem_map.1 ht
            obtain ⟨n, rfl, _⟩ := hints j hj
            exact intToChars_no_semi n hct
      · rcases hb : r.byMonth with _ | l
        · rw [hb] at hp; simp at hp
        · obtain ⟨hlne, hints⟩ := h.byMonth_ok l (by rw [hb]; rfl)
          rw [hb] at hp
          simp only [if_pos hlne, List.mem_singleton] at hp
          rw [hp]
          refine no_semi_append _ _ (by decide) ?_
          intro hm
          rcases mem_intercalate_single ',' _ ';' hm with hx | ⟨t, ht, hct⟩
          · exact absurd hx (by decide)
          · obtain ⟨j, hj, rfl⟩ := List.mem_map.1 ht
            obtain ⟨n, rfl, _⟩ := hints j hj
            exact intToChars_no_semi n hct
      · rcases hb : r.bySetPos with _ | l
        · rw [hb] at hp; simp at hp
        · obtain ⟨hlne, hints⟩ := h.bySetPos_ok l (by rw [hb]; rfl)
          rw [hb] at hp
          simp only [if_pos hlne, List.mem_singleton] at hp
          rw [hp]
          refine no_semi_append _ _ (by decide) ?_
          intro hm
          rcases mem_intercalate_single ',' _ ';' hm with hx | ⟨t, ht, hct⟩
          · exact absurd hx (by decide)
          · obtain ⟨j, hj, rfl⟩ := List.mem_map.1 ht
            obtain ⟨n, rfl, _⟩ := hints j hj
            exact intToChars_no_semi n hct
      · rcases hw : r.wkst with _ | w
        · rw [hw] at hp; simp at hp
        · obtain ⟨hne, hclean⟩ := h.wkst_ok w (by rw [hw]; rfl)
          rw [hw] at hp
          simp only [if_pos hne, List.mem_singleton] at hp
          rw [hp]
          exact no_semi_append _ _ (by decide) (cleanStr_not_mem _ hclean).1
    simp only [List.foldl_append, List.foldl_cons, List.foldl_nil]
    rw [stepClause_FREQ {} r.freq hfacts.2.1 hfacts.1]
    rw [fold_intervalSeg r h _ rfl, fold_countSeg r h _ rfl, fold_untilSeg r h _ rfl,
      fold_byDaySeg r h _ rfl, fold_byMonthDaySeg r h _ rfl, fold_byMonthSeg r h _ rfl,
      fold_bySetPosSeg r h _ rfl, fold_wkstSeg r h _ rfl]
    rfl
  refine ⟨_, hparse, hfacts.2.2.2, ?_, rfl, rfl, rfl, rfl, rfl, rfl, rfl⟩
  intro n hn h1
  show (match r.interval with
    | some (.int n) => if 1 < n then some (JsNum.int n) else none
    | _ => none) = r.interval
  rw [hn]
  simp [h1]

/-- Witness for C2 at a fully-populated concrete rule. -/
theorem parse_build_roundtrip_witness :
    ∃ rr : RecurrenceRule, parseRRule (buildRRule wfSample) = some rr ∧
      rr.freq = wfSample.freq ∧
      (∀ n : Int, wfSample.interval = some (.int n) → 1 < n →
        rr.interval = wfSample.interval) ∧
      rr.count = wfSample.count ∧ rr.until' = wfSample.until' ∧
      rr.byDay = wfSample.byDay ∧ rr.byMonthDay = wfSample.byMonthDay ∧
      rr.byMonth = wfSample.byMonth ∧ rr.bySetPos = wfSample.bySetPos ∧
      rr.wkst = wfSample.wkst :=
  parse_build_roundtrip wfSample
    (by
      refine ⟨by decide, ?_, ?_, ?_, ?_, ?_, ?_, ?_, ?_⟩
      · rintro j hj
        simp only [wfSample, Option.mem_def, Option.some.injEq] at hj
        exact ⟨2, hj.symm, by decide, by norm_num [SmallInt]⟩
      · rintro j hj
        simp only [wfSample, Option.mem_def, Option.some.injEq] at hj
        exact ⟨10, hj.symm, by decide, by norm_num [SmallInt]⟩
      · rintro u hu
        simp only [wfSample, Option.mem_def, Option.some.injEq] at hu
        subst hu
        exact ⟨by decide, by decide⟩
      · rintro l hl
        simp only [wfSample, Option.mem_def, Option.some.injEq] at hl
        subst hl
        refine ⟨by decide, ?_⟩
        intro t ht
        simp only [List.mem_cons, List.mem_singleton] at ht
        rcases ht with rfl | rfl | (rfl | ht)
        · exact ⟨by decide, by decide⟩
        · exact ⟨by decide, by decide⟩
        · exact ⟨by decide, by decide⟩
        · exact absurd ht (by simp)
      · rintro l hl
        simp only [wfSample, Option.mem_def, Option.some.injEq] at hl
        subst hl
        refine ⟨by decide, ?_⟩
        intro j hj
        simp only [List.mem_cons, List.mem_singleton] at hj
        rcases hj with rfl | (rfl | hj)
        · exact ⟨15, rfl, by norm_num [SmallInt]⟩
        · exact ⟨-1, rfl, by norm_num [SmallInt]⟩
        · exact absurd hj (by simp)
      · rintro l hl
        simp only [wfSample, Option.mem_def, Option.some.injEq] at hl
        subst hl
        refine ⟨by decide, ?_⟩
        intro j hj
        simp only [List.mem_cons, List.mem_singleton] at hj
        rcases hj with rfl | (rfl | hj)
        · exact ⟨1, rfl, by norm_num [SmallInt]⟩
        · exact ⟨12, rfl, by norm_num [SmallInt]⟩
        · exact absurd hj (by simp)
      · rintro l hl
        simp only [wfSample, Option.mem_def, Option.some.injEq] at hl
        subst hl
        refine ⟨by decide, ?_⟩
        intro j hj
        simp only [List.mem_singleton] at hj
        subst hj
        exact ⟨-1, rfl, by norm_num [SmallInt]⟩
      · rintro w hw
        simp only [wfSample, Option.mem_def, Option.some.injEq] at hw
        subst hw
        exact ⟨by decide, by decide⟩)

theorem firstOr_nil (o : Option Str) : firstOr o [] = o := by
  cases o <;> rfl

theorem firstOr_assoc (o : Option Str) (a b : List Str) :
    firstOr (firstOr o a) b = firstOr o (a ++ b) := by
  cases o with
  | some x => rfl
  | none =>
    cases a with
    | nil => rfl
    | cons x xs => rfl

theorem truthyStr_some (o : Option Str) (h : truthyStr o = true) :
    ∃ d, o = some d ∧ d ≠ [] := by
  cases o with
  | none => simp [truthyStr] at h
  | some d => exact ⟨d, rfl, by simpa [truthyStr] using h⟩

theorem checkPart_eq (m : Str) (b : PartBody) (acc : Option Str × Option Str) :
    checkPart m b acc =
      (firstOr acc.1
        (if m = "text/html".toList ∧ truthyStr b.data then [b.data.getD []] else []),
       firstOr acc.2
        (if m = "text/plain".toList ∧ truthyStr b.data then [b.data.getD []] else [])) := by
  unfold checkPart
  by_cases h1 : m = "text/html".toList ∧ truthyStr b.data
  · have hnp : ¬(m = "text/plain".toList ∧ truthyStr b.data) := by
      rintro ⟨hp, _⟩
      rw [h1.1] at hp
      exact absurd hp (by decide)
    obtain ⟨d, hd, _⟩ := truthyStr_some _ h1.2
    rw [if_pos h1, if_pos h1, if_neg hnp, firstOr_nil]
    cases hacc : acc.1 with
    | none => simp [firstOr, hd]
    | some x => simp [firstOr, hd]
  · rw [if_neg h1, if_neg h1]
    by_cases h2 : m = "text/plain".toList ∧ truthyStr b.data
    · obtain ⟨d, hd, _⟩ := truthyStr_some _ h2.2
      rw [if_pos h2, if_pos h2, firstOr_nil]
      cases hacc : acc.2 with
      | none => simp [firstOr, hd]
      | some x => simp [firstOr, hd]
    · rw [if_neg h2, if_neg h2, firstOr_nil, firstOr_nil]

theorem findBodyParts_eq (l : PartList) (acc : Option Str × Option Str) :
    findBodyParts l acc =
      (firstOr acc.1 (bodyCandidates "text/html".toList l),
       firstOr acc.2 (bodyCandidates "text/plain".toList l)) := by
  match l with
  | .nil =>
    rw [findBodyParts, bodyCandidates, bodyCandidates, firstOr_nil, firstOr_nil]
  | .cons (.mk m f h b sub) rest =>
    rw [findBodyParts, findBodyParts_eq sub, checkPart_eq, findBodyParts_eq rest,
      bodyCandidates, bodyCandidates]
    simp only [firstOr_assoc, List.append_assoc]

theorem extractBody_eq_candidates (p : MessagePart) :
    extractBody p =
      (match (collectBodies p "text/html".toList).head? with
       | some hh => decodeBase64 hh
       | none =>
         match (collectBodies p "text/plain".toList).head? with
         | some t => convertTextToHtml (decodeBase64 t)
         | none => []) := by
  rcases p with ⟨m, f, hh, b, sub⟩
  unfold extractBody collectBodies
  simp only [MessagePart.mimeType, MessagePart.body, MessagePart.parts]
  rw [findBodyParts_eq]
  by_cases hd : truthyStr b.data = true
  · obtain ⟨d, hdd, _⟩ := truthyStr_some _ hd
    rw [hdd] at hd
    by_cases hm : m = "text/html".toList
    · have hnp : m ≠ "text/plain".toList := by rw [hm]; decide
      simp only [hd, hm, if_pos, and_true, if_true, hnp, false_and, if_false,
        List.nil_append, hdd]
      simp [firstOr, Option.getD, hd]
    · by_cases hp : m = "text/plain".toList
      · simp only [hd, hm, hp, and_true, if_true, false_and, if_false, List.nil_append,
          if_neg, hdd]
        simp [firstOr, Option.getD, hd]
      · simp only [hd, hm, hp, false_and, and_true, if_false, List.nil_append]
        simp [firstOr]
  · have hd' : truthyStr b.data = false := by simpa using hd
    simp only [hd', and_false, if_false, Bool.false_eq_true, List.nil_append]
    simp [firstOr]

/-- C1: when a payload tree contains exactly one HTML body part and exactly
one plain-text body part (each with truthy inline data, at any depth, the
root included), the extracted body is the transport-decoded HTML part, never
the plain part; and the plain part is promoted through `convertTextToHtml`
exactly when no HTML body exists anywhere in the tree. -/
theorem extractBody_html_priority :
    (∀ (p : MessagePart) (hdata tdata : Str),
      collectBodies p "text/html".toList = [hdata] →
      collectBodies p "text/plain".toList = [tdata] →
      extractBody p = decodeBase64 hdata) ∧
    (∀ (p : MessagePart) (tdata : Str),
      collectBodies p "text/html".toList = [] →
      collectBodies p "text/plain".toList = [tdata] →
      extractBody p = convertTextToHtml (decodeBase64 tdata)) := by
  constructor
  · intro p hdata tdata hH hT
    rw [extractBody_eq_candidates, hH]
    simp
  · intro p tdata hH hT
    rw [extractBody_eq_candidates, hH, hT]
    simp

/-- Witness for C1: a two-part alternative payload with one plain and one
HTML part extracts the decoded HTML, and the plain body is promoted when the
HTML part is absent. -/
theorem extractBody_html_priority_witness :
    extractBody
        (.mk "multipart/alternative".toList [] none {}
          (.cons (.mk "text/plain".toList [] none { data := some "aGk=".toList } .nil)
            (.cons (.mk "text/html".toList [] none { data := some "PGI+aGk8L2I+".toList } .nil)
              .nil))) =
      decodeBase64 "PGI+aGk8L2I+".toList ∧
    extractBody
        (.mk "multipart/alternative".toList [] none {}
          (.cons (.mk "text/plain".toList [] none { data := some "aGk=".toList } .nil) .nil)) =
      convertTextToHtml (decodeBase64 "aGk=".toList) :=
  ⟨extractBody_html_priority.1 _ "PGI+aGk8L2I+".toList "aGk=".toList (by decide) (by decide),
   extractBody_html_priority.2 _ "aGk=".toList (by decide) (by decide)⟩

theorem matchCI_exact (p m : Str) (h : lowerEq m p) (r : Str) :
    matchCI p (m ++ r) = some (m, r) := by
  induction p generalizing m with
  | nil =>
    have hm : m = [] := by
      have := congrArg List.length h
      simpa [lowerEq] using this
    subst hm
    rfl
  | cons x ps ih =>
    cases m with
    | nil => simp [lowerEq] at h
    | cons c ms =>
      simp only [lowerEq, List.map_cons, List.cons.injEq] at h
      obtain ⟨h1, h2⟩ := h
      simp only [List.cons_append, matchCI, if_pos h1, List.append_eq, ih ms h2]

theorem matchCI_spec (p s m r : Str) (h : matchCI p s = some (m, r)) :
    s = m ++ r ∧ lowerEq m p := by
  induction p generalizing s m with
  | nil =>
    cases s with
    | nil =>
      simp only [matchCI, Option.some.injEq, Prod.mk.injEq] at h
      obtain ⟨h1, h2⟩ := h
      subst h1
      subst h2
      exact ⟨rfl, rfl⟩
    | cons c cs =>
      simp only [matchCI, Option.some.injEq, Prod.mk.injEq] at h
      obtain ⟨h1, h2⟩ := h
      subst h1
      subst h2
      exact ⟨rfl, rfl⟩
  | cons x ps ih =>
    cases s with
    | nil => simp [matchCI] at h
    | cons c cs =>
      simp only [matchCI] at h
      split at h
      · rename_i hcx
        cases hm : matchCI ps cs with
        | none => rw [hm] at h; simp at h
        | some p2 =>
          obtain ⟨m2, r2⟩ := p2
          rw [hm] at h
          simp only [Option.some.injEq, Prod.mk.injEq] at h
          obtain ⟨hm2, hr2⟩ := h
          subst hr2
          subst hm2
          obtain ⟨hs2, hl2⟩ := ih cs m2 hm
          refine ⟨by rw [List.cons_append, hs2], ?_⟩
          simp only [lowerEq, List.map_cons, List.cons.injEq]
          exact ⟨hcx, hl2⟩
      · simp at h

theorem matchCidAt_occurrence (id srcv cidv idv : Str) (q1 q2 : Char)
    (rest : Str) (hs : lowerEq srcv "src=".toList) (hq1 : isQuote q1 = true)
    (hc : lowerEq cidv "cid:".toList) (hi : lowerEq idv id)
    (hq2 : isQuote q2 = true) :
    matchCidAt id (srcv ++ q1 :: (cidv ++ (idv ++ q2 :: rest))) =
      some (srcv ++ [q1], q2, rest) := by
  unfold matchCidAt
  rw [matchCI_exact _ _ hs]
  simp only [matchCI_exact _ _ hc, matchCI_exact _ _ hi, hq1, hq2, if_true]

theorem matchCidAt_rest_lt (id s pre : Str) (q2 : Char) (rest : Str)
    (h : matchCidAt id s = some (pre, q2, rest)) : rest.length < s.length := by
  unfold matchCidAt at h
  cases h1 : matchCI "src=".toList s with
  | none =>
    simp only [h1] at h
    exact absurd h (by simp)
  | some p1 =>
    obtain ⟨m1, r1⟩ := p1
    simp only [h1] at h
    obtain ⟨hs1, _⟩ := matchCI_spec _ _ _ _ h1
    cases r1 with
    | nil => simp at h
    | cons q1 r2 =>
      simp only at h
      split at h
      · cases h2 : matchCI "cid:".toList r2 with
        | none =>
          simp only [h2] at h
          exact absurd h (by simp)
        | some p2 =>
          obtain ⟨m2, r3⟩ := p2
          simp only [h2] at h
          obtain ⟨hs2, _⟩ := matchCI_spec _ _ _ _ h2
          cases h3 : matchCI id r3 with
          | none =>
            simp only [h3] at h
            exact absurd h (by simp)
          | some p3 =>
            obtain ⟨m3, r4⟩ := p3
            simp only [h3] at h
            obtain ⟨hs3, _⟩ := matchCI_spec _ _ _ _ h3
            cases r4 with
            | nil => simp at h
            | cons q2b r5 =>
              simp only at h
              split at h
              · simp only [Option.some.injEq, Prod.mk.injEq] at h
                obtain ⟨_, _, hr5⟩ := h
                subst hr5
                rw [hs1, hs2, hs3]
                simp [List.length_append]
                omega
              · simp at h
      · simp at h

theorem replaceScanAux_cons (id uri : Str) (fuel : Nat) (c : Char) (cs : Str) :
    replaceScanAux id uri (fuel + 1) (c :: cs) =
      match matchCidAt id (c :: cs) with
      | some (pre, q2, rest) => pre ++ uri ++ q2 :: replaceScanAux id uri fuel rest
      | none => c :: replaceScanAux id uri fuel cs := rfl

theorem replaceScanAux_stable (id uri : Str) (f1 : Nat) : ∀ (f2 : Nat) (s : Str),
    s.length < f1 → s.length < f2 →
    replaceScanAux id uri f1 s = replaceScanAux id uri f2 s := by
  induction f1 with
  | zero => intro f2 s h1 _; exact absurd h1 (by omega)
  | succ f ih =>
    intro f2 s h1 h2
    cases f2 with
    | zero => exact absurd h2 (by omega)
    | succ g =>
      cases s with
      | nil => rfl
      | cons c cs =>
        rw [replaceScanAux_cons id uri f, replaceScanAux_cons id uri g]
        cases hm : matchCidAt id (c :: cs) with
        | none =>
          simp only [hm]
          have hlen : cs.length < f := by simp at h1; omega
          have hlen2 : cs.length < g := by simp at h2; omega
          rw [ih g cs hlen hlen2]
        | some p =>
          obtain ⟨pre, q2, rest⟩ := p
          simp only [hm]
          have hlt := matchCidAt_rest_lt _ _ _ _ _ hm
          simp only [List.length_cons] at hlt h1 h2
          rw [ih g rest (by omega) (by omega)]

theorem replaceScan_nil (id uri : Str) : replaceScan id uri [] = [] := rfl

theorem replaceScan_cons_none (id uri : Str) (c : Char) (cs : Str)
    (h : matchCidAt id (c :: cs) = none) :
    replaceScan id uri (c :: cs) = c :: replaceScan id uri cs := by
  unfold replaceScan
  rw [show (c :: cs).length + 1 = cs.length + 1 + 1 from by simp]
  rw [replaceScanAux_cons]
  simp only [h]

theorem replaceScan_match (id uri s pre : Str) (q2 : Char) (rest : Str)
    (h : matchCidAt id s = some (pre, q2, rest)) :
    replaceScan id uri s = pre ++ uri ++ q2 :: replaceScan id uri rest := by
  cases s with
  | nil => exact absurd h (by simp [matchCidAt, matchCI])
  | cons c cs =>
    unfold replaceScan
    rw [show (c :: cs).length + 1 = cs.length + 1 + 1 from by simp]
    rw [replaceScanAux_cons]
    simp only [h]
    have hlt := matchCidAt_rest_lt _ _ _ _ _ h
    simp only [List.length_cons] at hlt
    rw [replaceScanAux_stable id uri (cs.length + 1) (rest.length + 1) rest
      (by omega) (by omega)]

theorem replaceScan_occurrence (id uri pre srcv cidv idv : Str) (q1 q2 : Char)
    (rest : Str) (hs : lowerEq srcv "src=".toList) (hq1 : isQuote q1 = true)
    (hc : lowerEq cidv "cid:".toList) (hi : lowerEq idv id)
    (hq2 : isQuote q2 = true)
    (hpre : ∀ j, j < pre.length → matchCidAt id
      (List.drop j (pre ++ (srcv ++ q1 :: (cidv ++ (idv ++ q2 :: rest))))) = none) :
    replaceScan id uri (pre ++ (srcv ++ q1 :: (cidv ++ (idv ++ q2 :: rest)))) =
      pre ++ ((srcv ++ [q1]) ++ uri ++ q2 :: replaceScan id uri rest) := by
  induction pre with
  | nil =>
    simp only [List.nil_append]
    exact replaceScan_match id uri _ _ _ _
      (matchCidAt_occurrence id srcv cidv idv q1 q2 rest hs hq1 hc hi hq2)
  | cons a pre2 ih =>
    have h0 := hpre 0 (by simp)
    rw [List.drop_zero, List.cons_append] at h0
    rw [List.cons_append, replaceScan_cons_none id uri a _ h0]
    rw [ih (fun j hj => by
      have hj2 := hpre (j + 1) (by simp only [List.length_cons]; omega)
      rw [List.cons_append, List.drop_succ_cons] at hj2
      exact hj2)]
    rw [List.cons_append]
/-- C3: for every inline image and every non-empty body,
`replaceCidWithDataUri` is the raw-identifier replacement pass followed by
the percent-encoded pass exactly when the encoded identifier differs from
the raw one; and the replacement pass rewrites every occurrence of `src=`
followed by either quote, `cid:` and the identifier, all matched
case-insensitively, into the same `src=` text and quotes around the
`data:<mimeType>;base64,<data>` URI, leaving every non-matching position
unchanged.  The dollar-free hypotheses record that the JavaScript
replacement template then inserts the URI verbatim, which is what the
embedding performs; MIME types and base64 payloads never contain one. -/
theorem replaceCid_both_styles :
    (∀ (body : Str) (img : InlineImage), body ≠ [] →
      '$' ∉ img.mimeType → '$' ∉ img.data →
      replaceCidWithDataUri body [img] =
        if encodeURIComponent img.contentId ≠ img.contentId then
          replaceScan (encodeURIComponent img.contentId) (dataUri img)
            (replaceScan img.contentId (dataUri img) body)
        else replaceScan img.contentId (dataUri img) body) ∧
    (∀ (id uri pre srcv cidv idv : Str) (q1 q2 : Char) (rest : Str), '$' ∉ uri →
      lowerEq srcv "src=".toList → isQuote q1 = true →
      lowerEq cidv "cid:".toList → lowerEq idv id → isQuote q2 = true →
      (∀ j, j < pre.length → matchCidAt id
        (List.drop j (pre ++ (srcv ++ q1 :: (cidv ++ (idv ++ q2 :: rest))))) = none) →
      replaceScan id uri (pre ++ (srcv ++ q1 :: (cidv ++ (idv ++ q2 :: rest)))) =
        pre ++ ((srcv ++ [q1]) ++ uri ++ q2 :: replaceScan id uri rest)) ∧
    (∀ (id uri : Str) (c : Char) (cs : Str), matchCidAt id (c :: cs) = none →
      replaceScan id uri (c :: cs) = c :: replaceScan id uri cs) ∧
    (∀ id uri : Str, replaceScan id uri [] = []) := by
  refine ⟨?_, ?_, ?_, ?_⟩
  · intro body img hbody _ _
    unfold replaceCidWithDataUri
    rw [if_neg (by simp [hbody])]
    simp only [List.foldl_cons, List.foldl_nil]
  · intro id uri pre srcv cidv idv q1 q2 rest _ hs hq1 hc hi hq2 hpre
    exact replaceScan_occurrence id uri pre srcv cidv idv q1 q2 rest
      hs hq1 hc hi hq2 hpre
  · exact replaceScan_cons_none
  · intro id uri
    rfl

/-- Witness for C3: both quote styles and mixed case at a concrete PNG image
(raw identifier, no encoded pass), the percent-encoded pass for an identifier
containing `@`, and one explicit occurrence replacement behind a non-matching
prefix. -/
theorem replaceCid_both_styles_witness :
    (replaceCidWithDataUri
        "<p><img SRC=\"CID:image123\"><img src='cid:Image123'></p>".toList
        [{ contentId := "image123".toList, mimeType := "image/png".toList,
           data := "AA".toList }] =
      ("<p><img SRC=\"data:image/png;base64,AA\">" ++
        "<img src='data:image/png;base64,AA'></p>").toList) ∧
    (replaceCidWithDataUri "<img src=\"cid:foo%40bar\">".toList
        [{ contentId := "foo@bar".toList, mimeType := "image/png".toList,
           data := "AA".toList }] =
      "<img src=\"data:image/png;base64,AA\">".toList) ∧
    (replaceScan "image123".toList "URI".toList
        ("<p><img ".toList ++ ("SRC=".toList ++ '"' ::
          ("CID:".toList ++ ("Image123".toList ++ '"' :: "></p>".toList)))) =
      "<p><img ".toList ++ (("SRC=".toList ++ ['"']) ++ "URI".toList ++ '"' ::
        replaceScan "image123".toList "URI".toList "></p>".toList)) := by
  refine ⟨?_, ?_, ?_⟩
  · rw [replaceCid_both_styles.1 _ _ (by decide) (by decide) (by decide)]
    decide
  · rw [replaceCid_both_styles.1 _ _ (by decide) (by decide) (by decide)]
    decide
  · exact replaceCid_both_styles.2.1 _ _ _ _ _ _ _ _ _
      (by decide) (by decide) (by decide) (by decide) (by decide) (by decide)
      (by decide)

/-! ## C4: markup safety of the plain-text promotion -/

theorem replaceChar_append (t : Char) (r a b : Str) :
    replaceChar t r (a ++ b) = replaceChar t r a ++ replaceChar t r b := by
  induction a with
  | nil => rfl
  | cons c cs ih => simp [replaceChar, ih]

theorem replaceChar_of_not_mem (t : Char) (r a : Str) (h : t ∉ a) :
    replaceChar t r a = a := by
  induction a with
  | nil => rfl
  | cons c cs ih =>
    have hc : c ≠ t := fun he => h (he ▸ List.mem_cons_self c cs)
    simp [replaceChar, hc, ih (fun hm => h (List.mem_cons_of_mem c hm))]

theorem escapeHtml_nil : escapeHtml [] = [] := rfl

theorem escapeHtml_cons (c : Char) (t : Str) :
    escapeHtml (c :: t) = escChar c ++ escapeHtml t := by
  by_cases h1 : c = '&'
  · subst h1; simp [escapeHtml, escChar, replaceChar, replaceChar_append]
  by_cases h2 : c = '<'
  · subst h2; simp [escapeHtml, escChar, replaceChar, replaceChar_append, h1]
  by_cases h3 : c = '>'
  · subst h3; simp [escapeHtml, escChar, replaceChar, replaceChar_append, h1, h2]
  by_cases h4 : c = '"'
  · subst h4; simp [escapeHtml, escChar, replaceChar, replaceChar_append, h1, h2, h3]
  by_cases h5 : c = Char.ofNat 39
  · subst h5; simp [escapeHtml, escChar, replaceChar, replaceChar_append, h1, h2, h3, h4]
  · simp [escapeHtml, escChar, replaceChar, replaceChar_append, h1, h2, h3, h4, h5]

theorem escapeHtml_escText (t : Str) : EscText (escapeHtml t) := by
  induction t with
  | nil => exact EscText.nil
  | cons c cs ih =>
    rw [escapeHtml_cons]
    by_cases h1 : c = '&'
    · subst h1; exact EscText.ent _ _ (by simp [entityList, escChar]) ih
    by_cases h2 : c = '<'
    · subst h2; exact EscText.ent _ _ (by simp [entityList, escChar]) ih
    by_cases h3 : c = '>'
    · subst h3; exact EscText.ent _ _ (by simp [entityList, escChar]) ih
    by_cases h4 : c = '"'
    · subst h4; exact EscText.ent _ _ (by simp [entityList, escChar]) ih
    by_cases h5 : c = Char.ofNat 39
    · subst h5; exact EscText.ent _ _ (by simp [entityList, escChar]) ih
    · have : escChar c = [c] := by simp [escChar, h1, h2, h3, h4, h5]
      rw [this]
      exact EscText.chr c _ (by simp [safeChar, h1, h2, h3, h4, h5]) ih

theorem head_dropWhile_false (p : Char → Bool) (l : Str) (c : Char)
    (h : (l.dropWhile p).head? = some c) : p c = false := by
  induction l with
  | nil => simp [List.dropWhile] at h
  | cons a as ih =>
    rw [List.dropWhile_cons] at h
    by_cases hp : p a
    · rw [if_pos hp] at h; exact ih h
    · rw [if_neg hp] at h
      simp at h
      subst h
      simpa using hp

theorem matchUrlAt_ne_h (c : Char) (cs : Str) (h : c ≠ Char.ofNat 104) :
    matchUrlAt (c :: cs) = none := by
  unfold matchUrlAt
  split
  · rename_i heq
    injection heq with h1 _
    exact absurd h1 h
  · rfl

theorem matchUrlAt_some_spec (s url rest : Str)
    (h : matchUrlAt s = some (url, rest)) :
    ∃ pre u, (pre = "http://".toList ∨ pre = "https://".toList) ∧
      s = pre ++ u ++ rest ∧ url = pre ++ u ∧ u ≠ [] ∧
      (∀ c ∈ u, urlChar c = true) ∧
      (∀ c, rest.head? = some c → urlChar c = false) := by
  unfold matchUrlAt at h
  split at h
  · rename_i rest0
    split at h
    · rename_i r2
      split at h
      · exact absurd h (by simp)
      · rename_i hne
        simp only [Option.some.injEq, Prod.mk.injEq] at h
        obtain ⟨hurl, hrest⟩ := h
        refine ⟨"https://".toList, r2.takeWhile urlChar, Or.inr rfl, ?_,
          hurl.symm, hne, ?_, ?_⟩
        · rw [← hrest]
          simp [List.append_assoc, List.takeWhile_append_dropWhile]
        · intro c hc; exact List.mem_takeWhile_imp hc
        · intro c hc; rw [← hrest] at hc; exact head_dropWhile_false _ _ _ hc
    · rename_i r2
      split at h
      · exact absurd h (by simp)
      · rename_i hne
        simp only [Option.some.injEq, Prod.mk.injEq] at h
        obtain ⟨hurl, hrest⟩ := h
        refine ⟨"http://".toList, r2.takeWhile urlChar, Or.inl rfl, ?_,
          hurl.symm, hne, ?_, ?_⟩
        · rw [← hrest]
          simp [List.append_assoc, List.takeWhile_append_dropWhile]
        · intro c hc; exact List.mem_takeWhile_imp hc
        · intro c hc; rw [← hrest] at hc; exact head_dropWhile_false _ _ _ hc
    · exact absurd h (by simp)
  · exact absurd h (by simp)

theorem matchUrlAt_rest_lt (s url rest : Str)
    (h : matchUrlAt s = some (url, rest)) : rest.length < s.length := by
  obtain ⟨pre, u, hpre, hs, _, hu, _, _⟩ := matchUrlAt_some_spec s url rest h
  subst hs
  have h1 : 0 < u.length := List.length_pos.2 hu
  have h2 : 0 < pre.length := by
    rcases hpre with h | h <;> subst h <;> simp
  simp [List.length_append]
  omega

theorem linkifyAux_cons (f : Nat) (c : Char) (cs : Str) :
    linkifyAux (f + 1) (c :: cs) =
      match matchUrlAt (c :: cs) with
      | some (url, rest) =>
        "<a href=\"".toList ++ url ++ "\">".toList ++ url ++ "</a>".toList ++
          linkifyAux f rest
      | none => c :: linkifyAux f cs := rfl

theorem linkifyAux_stable (f1 : Nat) : ∀ (f2 : Nat) (s : Str),
    s.length < f1 → s.length < f2 → linkifyAux f1 s = linkifyAux f2 s := by
  induction f1 with
  | zero => intro f2 s h1 _; exact absurd h1 (by omega)
  | succ f ih =>
    intro f2 s h1 h2
    cases f2 with
    | zero => exact absurd h2 (by omega)
    | succ g =>
      cases s with
      | nil => rfl
      | cons c cs =>
        rw [linkifyAux_cons f, linkifyAux_cons g]
        cases hm : matchUrlAt (c :: cs) with
        | none =>
          simp only [hm]
          have hlen : cs.length < f := by simp at h1; omega
          have hlen2 : cs.length < g := by simp at h2; omega
          rw [ih g cs hlen hlen2]
        | some p =>
          obtain ⟨url, rest⟩ := p
          simp only [hm]
          have hlt := matchUrlAt_rest_lt _ _ _ hm
          simp only [List.length_cons] at hlt h1 h2
          rw [ih g rest (by omega) (by omega)]

theorem linkify_nil : linkify [] = [] := rfl

theorem linkify_cons_none (c : Char) (cs : Str)
    (h : matchUrlAt (c :: cs) = none) : linkify (c :: cs) = c :: linkify cs := by
  unfold linkify
  rw [show (c :: cs).length + 1 = cs.length + 1 + 1 from by simp]
  rw [linkifyAux_cons]
  simp only [h]

theorem linkify_cons_some (s url rest : Str)
    (h : matchUrlAt s = some (url, rest)) :
    linkify s = anchorStr url ++ linkify rest := by
  cases s with
  | nil => exact absurd h (by simp [matchUrlAt])
  | cons c cs =>
    unfold linkify
    rw [show (c :: cs).length + 1 = cs.length + 1 + 1 from by simp]
    rw [linkifyAux_cons]
    simp only [h]
    have hlt := matchUrlAt_rest_lt _ _ _ h
    simp only [List.length_cons] at hlt
    rw [linkifyAux_stable (cs.length + 1) (rest.length + 1) rest (by omega) (by omega)]
    rfl

theorem escText_inv (s : Str) (h : EscText s) :
    s = [] ∨ (∃ e r, e ∈ entityList ∧ s = e ++ r ∧ EscText r) ∨
      (∃ c r, safeChar c = true ∧ s = c :: r ∧ EscText r) := by
  cases h with
  | nil => exact Or.inl rfl
  | ent e r he hr => exact Or.inr (Or.inl ⟨e, r, he, rfl, hr⟩)
  | chr c r hc hr => exact Or.inr (Or.inr ⟨c, r, hc, rfl, hr⟩)

theorem entity_head (e : Str) (he : e ∈ entityList) :
    e.head? = some '&' := by
  simp only [entityList, List.mem_cons, List.not_mem_nil, or_false] at he
  rcases he with he | he | he | he | he <;> subst he <;> rfl

theorem escText_cons_inv (c : Char) (x : Str) (hc : c ≠ '&')
    (h : EscText (c :: x)) : safeChar c = true ∧ EscText x := by
  rcases escText_inv _ h with h0 | ⟨e, r, he, heq, hr⟩ | ⟨c', r, hc', heq, hr⟩
  · exact absurd h0 (by simp)
  · exfalso
    have hhead := entity_head e he
    cases e with
    | nil => simp at hhead
    | cons a e' =>
      simp only [List.head?_cons, Option.some.injEq] at hhead
      have hca : c = a := by
        have h2 := congrArg List.head? heq
        simpa using h2
      exact hc (hca.trans hhead)
  · obtain ⟨h1, h2⟩ := List.cons.injEq c x c' r ▸ heq
    exact ⟨h1 ▸ hc', h2 ▸ hr⟩

theorem entity_chars_url :
    ∀ e ∈ entityList, ∀ c ∈ e, urlChar c = true := by decide

theorem escText_split (w u v : Str) (hw : EscText w) (huv : w = u ++ v)
    (hu : ∀ c ∈ u, urlChar c = true)
    (hv : v = [] ∨ ∃ d v2, v = d :: v2 ∧ urlChar d = false) :
    EscText u ∧ EscText v := by
  induction hw generalizing u with
  | nil =>
    obtain ⟨h1, h2⟩ := List.append_eq_nil.1 huv.symm
    exact ⟨h1 ▸ EscText.nil, h2 ▸ EscText.nil⟩
  | chr c rest hc hr ih =>
    cases u with
    | nil =>
      have hveq : v = c :: rest := by simpa using huv.symm
      exact ⟨EscText.nil, hveq ▸ EscText.chr c rest hc hr⟩
    | cons a u2 =>
      simp only [List.cons_append, List.cons.injEq] at huv
      obtain ⟨hca, hrest⟩ := huv
      obtain ⟨ihu, ihv⟩ := ih u2 hrest (fun d hd => hu d (List.mem_cons_of_mem a hd))
      exact ⟨hca ▸ EscText.chr c u2 hc ihu, ihv⟩
  | ent e rest he hr ih =>
    cases u with
    | nil =>
      have hveq : v = e ++ rest := by simpa using huv.symm
      exact ⟨EscText.nil, hveq ▸ EscText.ent e rest he hr⟩
    | cons a u2 =>
      rcases List.append_eq_append_iff.1 huv with ⟨u3, hu3, hrest⟩ | ⟨e2, he2, hv2⟩
      · -- the whole entity sits inside the URL run
        obtain ⟨ihu, ihv⟩ := ih u3 hrest
          (fun d hd => hu d (hu3 ▸ List.mem_append_right e hd))
        exact ⟨hu3 ▸ EscText.ent e u3 he ihu, ihv⟩
      · cases e2 with
        | nil =>
          have hue : (a :: u2) = e := by simpa using he2.symm
          refine ⟨hue ▸ ?_, (by simpa using hv2) ▸ hr⟩
          have := EscText.ent e [] he EscText.nil
          simpa using this
        | cons d v2 =>
          exfalso
          have hd : urlChar d = true :=
            entity_chars_url e he d (he2 ▸ List.mem_append_right (a :: u2)
              (List.mem_cons_self d v2))
          rcases hv with hv | ⟨d2, v3, hveq, hdf⟩
          · rw [hv] at hv2; simp at hv2
          · rw [hveq] at hv2
            simp only [List.cons_append, List.cons.injEq] at hv2
            rw [hv2.1] at hdf
            rw [hd] at hdf
            simp at hdf

theorem escText_match_split (s url rest : Str) (hs : EscText s)
    (h : matchUrlAt s = some (url, rest)) :
    (url ≠ [] ∧ (∀ c ∈ url, urlChar c = true) ∧ EscText url) ∧ EscText rest := by
  obtain ⟨pre, u, hpre, hseq, hurl, hune, huchars, hrestb⟩ :=
    matchUrlAt_some_spec _ _ _ h
  have hsu : EscText (u ++ rest) := by
    rw [hseq] at hs
    rcases hpre with hp | hp <;> rw [hp] at hs
    · have h0 : EscText ('h' :: 't' :: 't' :: 'p' :: ':' :: '/' :: '/' ::
          (u ++ rest)) := by simpa [List.append_assoc] using hs
      exact (escText_cons_inv _ _ (by decide)
        ((escText_cons_inv _ _ (by decide)
        ((escText_cons_inv _ _ (by decide)
        ((escText_cons_inv _ _ (by decide)
        ((escText_cons_inv _ _ (by decide)
        ((escText_cons_inv _ _ (by decide)
        ((escText_cons_inv _ _ (by decide) h0).2)).2)).2)).2)).2)).2)).2
    · have h0 : EscText ('h' :: 't' :: 't' :: 'p' :: 's' :: ':' :: '/' :: '/' ::
          (u ++ rest)) := by simpa [List.append_assoc] using hs
      exact (escText_cons_inv _ _ (by decide)
        ((escText_cons_inv _ _ (by decide)
        ((escText_cons_inv _ _ (by decide)
        ((escText_cons_inv _ _ (by decide)
        ((escText_cons_inv _ _ (by decide)
        ((escText_cons_inv _ _ (by decide)
        ((escText_cons_inv _ _ (by decide)
        ((escText_cons_inv _ _ (by decide) h0).2)).2)).2)).2)).2)).2)).2)).2
  have hbound : rest = [] ∨ ∃ d v2, rest = d :: v2 ∧ urlChar d = false := by
    cases rest with
    | nil => exact Or.inl rfl
    | cons d r2 => exact Or.inr ⟨d, r2, rfl, hrestb d rfl⟩
  obtain ⟨hu, hv⟩ := escText_split (u ++ rest) u rest hsu rfl huchars hbound
  refine ⟨⟨?_, ?_, ?_⟩, hv⟩
  · rw [hurl]
    rcases hpre with hp | hp <;> rw [hp] <;> simp
  · intro c hc
    rw [hurl] at hc
    rcases List.mem_append.1 hc with hc | hc
    · have hall : ∀ d ∈ pre, urlChar d = true := by
        rcases hpre with hp | hp <;> rw [hp] <;> decide
      exact hall c hc
    · exact huchars c hc
  · rw [hurl]
    rcases hpre with hp | hp <;> rw [hp]
    · exact EscText.chr _ _ (by decide) (EscText.chr _ _ (by decide)
        (EscText.chr _ _ (by decide) (EscText.chr _ _ (by decide)
        (EscText.chr _ _ (by decide) (EscText.chr _ _ (by decide)
        (EscText.chr _ _ (by decide) hu))))))
    · exact EscText.chr _ _ (by decide) (EscText.chr _ _ (by decide)
        (EscText.chr _ _ (by decide) (EscText.chr _ _ (by decide)
        (EscText.chr _ _ (by decide) (EscText.chr _ _ (by decide)
        (EscText.chr _ _ (by decide) (EscText.chr _ _ (by decide) hu)))))))

theorem safeChar_mid (c : Char) (h : safeChar c = true) : midChar c = true := by
  simp only [safeChar, Bool.and_eq_true] at h
  simp only [midChar, Bool.and_eq_true]
  exact ⟨⟨h.1.1.1.1, h.1.1.1.2⟩, h.1.1.2⟩

theorem entity_ne_nil : ∀ e ∈ entityList, e ≠ [] := by decide

theorem entity_no_h : ∀ e ∈ entityList, ∀ c ∈ e, c ≠ Char.ofNat 104 := by decide

theorem linkify_skip_no_h (p r : Str) (hp : ∀ c ∈ p, c ≠ Char.ofNat 104) :
    linkify (p ++ r) = p ++ linkify r := by
  induction p with
  | nil => simp
  | cons c p2 ih =>
    rw [List.cons_append,
      linkify_cons_none c (p2 ++ r) (matchUrlAt_ne_h c _ (hp c (List.mem_cons_self c p2))),
      ih (fun d hd => hp d (List.mem_cons_of_mem c hd)), List.cons_append]

theorem linkify_midText_aux (n : Nat) : ∀ s : Str, s.length ≤ n → EscText s →
    MidText (linkify s) := by
  induction n with
  | zero =>
    intro s hl _
    have hs : s = [] := List.eq_nil_of_length_eq_zero (Nat.le_zero.1 hl)
    subst hs
    rw [linkify_nil]
    exact MidText.nil
  | succ n ih =>
    intro s hl he
    rcases escText_inv s he with h0 | ⟨e, r, he2, heq, hr⟩ | ⟨c, r, hc, heq, hr⟩
    · subst h0
      rw [linkify_nil]
      exact MidText.nil
    · subst heq
      have hrlen : r.length ≤ n := by
        have hep : 0 < e.length := List.length_pos.2 (entity_ne_nil e he2)
        simp only [List.length_append] at hl
        omega
      rw [linkify_skip_no_h e r (entity_no_h e he2)]
      exact MidText.ent e _ he2 (ih r hrlen hr)
    · subst heq
      cases hm : matchUrlAt (c :: r) with
      | none =>
        rw [linkify_cons_none c r hm]
        have hrlen : r.length ≤ n := by
          simp only [List.length_cons] at hl
          omega
        exact MidText.chr c _ (safeChar_mid c hc) (ih r hrlen hr)
      | some p =>
        obtain ⟨url, rest⟩ := p
        rw [linkify_cons_some _ _ _ hm]
        obtain ⟨⟨h1, h2, h3⟩, h4⟩ := escText_match_split _ _ _ he hm
        have hrest : rest.length ≤ n := by
          have hlt := matchUrlAt_rest_lt _ _ _ hm
          simp only [List.length_cons] at hlt hl
          omega
        exact MidText.anchor url _ h1 h2 h3 (ih rest hrest h4)

theorem linkify_midText (s : Str) (h : EscText s) : MidText (linkify s) :=
  linkify_midText_aux s.length s le_rfl h

theorem midText_inv (s : Str) (h : MidText s) :
    s = [] ∨ (∃ e r, e ∈ entityList ∧ s = e ++ r ∧ MidText r) ∨
      (∃ c r, midChar c = true ∧ s = c :: r ∧ MidText r) ∨
      (∃ url r, url ≠ [] ∧ (∀ c ∈ url, urlChar c = true) ∧ EscText url ∧
        s = anchorStr url ++ r ∧ MidText r) ∨
      (∃ r, s = "<br>".toList ++ r ∧ MidText r) := by
  cases h with
  | nil => exact Or.inl rfl
  | ent e r he hr => exact Or.inr (Or.inl ⟨e, r, he, rfl, hr⟩)
  | chr c r hc hr => exact Or.inr (Or.inr (Or.inl ⟨c, r, hc, rfl, hr⟩))
  | anchor url r h1 h2 h3 hr =>
    exact Or.inr (Or.inr (Or.inr (Or.inl ⟨url, r, h1, h2, h3, rfl, hr⟩)))
  | br r hr => exact Or.inr (Or.inr (Or.inr (Or.inr ⟨r, rfl, hr⟩)))

theorem midText_cons_inv (c : Char) (x : Str) (hc1 : c ≠ '&') (hc2 : c ≠ '<')
    (h : MidText (c :: x)) : midChar c = true ∧ MidText x := by
  rcases midText_inv _ h with h0 | ⟨e, r, he, heq, hr⟩ | ⟨d, r, hd, heq, hr⟩ |
    ⟨url, r, _, _, _, heq, hr⟩ | ⟨r, heq, hr⟩
  · exact absurd h0 (by simp)
  · exfalso
    have hhead := entity_head e he
    cases e with
    | nil => simp at hhead
    | cons a e2 =>
      simp only [List.head?_cons, Option.some.injEq] at hhead
      have hca : c = a := by
        have h2 := congrArg List.head? heq
        simpa using h2
      exact hc1 (hca.trans hhead)
  · obtain ⟨h1, h2⟩ := List.cons.injEq c x d r ▸ heq
    exact ⟨h1 ▸ hd, h2 ▸ hr⟩
  · exfalso
    have h2 := congrArg List.head? heq
    have h3 : c = '<' := by simpa [anchorStr] using h2
    exact hc2 h3
  · exfalso
    have h2 := congrArg List.head? heq
    have h3 : c = '<' := by simpa using h2
    exact hc2 h3

theorem mem_anchorStr (c : Char) (url : Str) (hc : c ∈ anchorStr url) :
    c ∈ "<a href=\"></".toList ∨ c ∈ url := by
  unfold anchorStr at hc
  have hsub : ∀ d ∈ "<a href=\"".toList, d ∈ "<a href=\"></".toList := by decide
  have hsub2 : ∀ d ∈ "\">".toList, d ∈ "<a href=\"></".toList := by decide
  have hsub3 : ∀ d ∈ "</a>".toList, d ∈ "<a href=\"></".toList := by decide
  rcases List.mem_append.1 hc with hc | hc
  · rcases List.mem_append.1 hc with hc | hc
    · rcases List.mem_append.1 hc with hc | hc
      · rcases List.mem_append.1 hc with hc | hc
        · exact Or.inl (hsub c hc)
        · exact Or.inr hc
      · exact Or.inl (hsub2 c hc)
    · exact Or.inr hc
  · exact Or.inl (hsub3 c hc)

theorem anchorStr_length_pos (url : Str) : 0 < (anchorStr url).length := by
  simp [anchorStr]

theorem replaceCRLF_cons2 (c d : Char) (rest : Str) :
    replaceCRLF (c :: d :: rest) =
      if c = '\r' ∧ d = '\n' then "<br>".toList ++ replaceCRLF rest
      else c :: replaceCRLF (d :: rest) := rfl

theorem replaceCRLF_cons_ne (c : Char) (r : Str) (hc : c ≠ '\r') :
    replaceCRLF (c :: r) = c :: replaceCRLF r := by
  cases r with
  | nil => rfl
  | cons d x =>
    rw [replaceCRLF_cons2, if_neg (fun hand => hc hand.1)]

theorem replaceCRLF_cr_ne (r : Str)
    (h : ∀ d, r.head? = some d → d ≠ '\n') :
    replaceCRLF ('\r' :: r) = '\r' :: replaceCRLF r := by
  cases r with
  | nil => rfl
  | cons d x =>
    rw [replaceCRLF_cons2, if_neg (fun hand => h d rfl hand.2)]

theorem replaceCRLF_skip (a b : Str) (ha : ∀ c ∈ a, c ≠ '\r') :
    replaceCRLF (a ++ b) = a ++ replaceCRLF b := by
  induction a with
  | nil => rfl
  | cons c a2 ih =>
    rw [List.cons_append,
      replaceCRLF_cons_ne c (a2 ++ b) (ha c (List.mem_cons_self c a2)),
      ih (fun d hd => ha d (List.mem_cons_of_mem c hd)), List.cons_append]

theorem entity_no_cr : ∀ e ∈ entityList, ∀ c ∈ e, c ≠ '\r' := by decide

theorem urlChar_facts (c : Char) (h : urlChar c = true) :
    c ≠ '\r' ∧ c ≠ '\n' ∧ c ≠ '<' ∧ c ≠ '>' ∧ c ≠ '"' := by
  refine ⟨?_, ?_, ?_, ?_, ?_⟩ <;> intro he <;> subst he <;> revert h <;> decide

theorem anchor_no_cr (url : Str) (h2 : ∀ c ∈ url, urlChar c = true) :
    ∀ c ∈ anchorStr url, c ≠ '\r' := by
  intro c hc
  rcases mem_anchorStr c url hc with hc | hc
  · revert hc
    have : ∀ d ∈ "<a href=\"></".toList, d ≠ '\r' := by decide
    exact this c
  · exact (urlChar_facts c (h2 c hc)).1

theorem replaceCRLF_mid_aux (n : Nat) : ∀ s : Str, s.length ≤ n → MidText s →
    MidText (replaceCRLF s) := by
  induction n with
  | zero =>
    intro s hl _
    have hs : s = [] := List.eq_nil_of_length_eq_zero (Nat.le_zero.1 hl)
    subst hs
    exact MidText.nil
  | succ n ih =>
    intro s hl hm
    rcases midText_inv s hm with h0 | ⟨e, r, he, heq, hr⟩ | ⟨c, r, hc, heq, hr⟩ |
      ⟨url, r, h1, h2, h3, heq, hr⟩ | ⟨r, heq, hr⟩
    · subst h0
      exact MidText.nil
    · subst heq
      have hrlen : r.length ≤ n := by
        have hep : 0 < e.length := List.length_pos.2 (entity_ne_nil e he)
        simp only [List.length_append] at hl
        omega
      rw [replaceCRLF_skip e r (entity_no_cr e he)]
      exact MidText.ent e _ he (ih r hrlen hr)
    · subst heq
      by_cases hcr : c = '\r'
      · subst hcr
        cases r with
        | nil => exact MidText.chr _ [] (by decide) MidText.nil
        | cons d x =>
          by_cases hd : d = '\n'
          · subst hd
            rw [replaceCRLF_cons2, if_pos ⟨rfl, rfl⟩]
            obtain ⟨_, hx⟩ := midText_cons_inv _ _ (by decide) (by decide) hr
            have hxlen : x.length ≤ n := by
              simp only [List.length_cons] at hl
              omega
            exact MidText.br _ (ih x hxlen hx)
          · rw [replaceCRLF_cr_ne (d :: x)
              (fun d2 hd2 => by simp only [List.head?_cons,
                Option.some.injEq] at hd2; exact hd2 ▸ hd)]
            have hrlen : (d :: x).length ≤ n := by
              simp only [List.length_cons] at hl ⊢
              omega
            exact MidText.chr _ _ hc (ih (d :: x) hrlen hr)
      · rw [replaceCRLF_cons_ne c r hcr]
        have hrlen : r.length ≤ n := by
          simp only [List.length_cons] at hl
          omega
        exact MidText.chr c _ hc (ih r hrlen hr)
    · subst heq
      have hrlen : r.length ≤ n := by
        have := anchorStr_length_pos url
        simp only [List.length_append] at hl
        omega
      rw [replaceCRLF_skip _ r (anchor_no_cr url h2)]
      exact MidText.anchor url _ h1 h2 h3 (ih r hrlen hr)
    · subst heq
      have hrlen : r.length ≤ n := by
        simp only [List.length_append] at hl
        simp at hl
        omega
      rw [replaceCRLF_skip _ r (by decide)]
      exact MidText.br _ (ih r hrlen hr)

theorem replaceCRLF_mid (s : Str) (h : MidText s) : MidText (replaceCRLF s) :=
  replaceCRLF_mid_aux s.length s le_rfl h

theorem replaceChar_cons (t : Char) (rep : Str) (c : Char) (cs : Str) :
    replaceChar t rep (c :: cs) =
      (if c = t then rep else [c]) ++ replaceChar t rep cs := rfl

theorem replaceChar_token_aux (t : Char) (ht : urlChar t = false)
    (hent : ∀ e ∈ entityList, t ∉ e) (hmk : t ∉ "<a href=\"></".toList)
    (hbr : t ∉ "<br>".toList) (n : Nat) :
    ∀ s : Str, s.length ≤ n → MidText s →
      MidText (replaceChar t "<br>".toList s) := by
  induction n with
  | zero =>
    intro s hl _
    have hs : s = [] := List.eq_nil_of_length_eq_zero (Nat.le_zero.1 hl)
    subst hs
    exact MidText.nil
  | succ n ih =>
    intro s hl hm
    rcases midText_inv s hm with h0 | ⟨e, r, he, heq, hr⟩ | ⟨c, r, hc, heq, hr⟩ |
      ⟨url, r, h1, h2, h3, heq, hr⟩ | ⟨r, heq, hr⟩
    · subst h0
      exact MidText.nil
    · subst heq
      have hrlen : r.length ≤ n := by
        have hep : 0 < e.length := List.length_pos.2 (entity_ne_nil e he)
        simp only [List.length_append] at hl
        omega
      rw [replaceChar_append, replaceChar_of_not_mem t _ e (hent e he)]
      exact MidText.ent e _ he (ih r hrlen hr)
    · subst heq
      have hrlen : r.length ≤ n := by
        simp only [List.length_cons] at hl
        omega
      rw [replaceChar_cons]
      by_cases hct : c = t
      · rw [if_pos hct]
        exact MidText.br _ (ih r hrlen hr)
      · rw [if_neg hct, List.singleton_append]
        exact MidText.chr c _ hc (ih r hrlen hr)
    · subst heq
      have hrlen : r.length ≤ n := by
        have := anchorStr_length_pos url
        simp only [List.length_append] at hl
        omega
      have hanch : t ∉ anchorStr url := by
        intro hmem
        rcases mem_anchorStr t url hmem with hmem | hmem
        · exact hmk hmem
        · rw [h2 t hmem] at ht
          simp at ht
      rw [replaceChar_append, replaceChar_of_not_mem t _ _ hanch]
      exact MidText.anchor url _ h1 h2 h3 (ih r hrlen hr)
    · subst heq
      have hrlen : r.length ≤ n := by
        simp only [List.length_append] at hl
        simp at hl
        omega
      rw [replaceChar_append, replaceChar_of_not_mem t _ _ hbr]
      exact MidText.br _ (ih r hrlen hr)

theorem replaceChar_cr_mid (s : Str) (h : MidText s) :
    MidText (replaceChar '\r' "<br>".toList s) :=
  replaceChar_token_aux '\r' (by decide) (by decide) (by decide) (by decide)
    s.length s le_rfl h

theorem replaceChar_lf_mid (s : Str) (h : MidText s) :
    MidText (replaceChar '\n' "<br>".toList s) :=
  replaceChar_token_aux '\n' (by decide) (by decide) (by decide) (by decide)
    s.length s le_rfl h

theorem safeMarkup_nil : safeMarkup [] = true := by simp [safeMarkup]

theorem safeMarkup_amp (rest : Str) :
    safeMarkup ("&amp;".toList ++ rest) = safeMarkup rest := by
  show safeMarkup ('&' :: 'a' :: 'm' :: 'p' :: ';' :: rest) = safeMarkup rest
  simp [safeMarkup]

theorem safeMarkup_cons_plain (c : Char) (rest : Str) (hc1 : c ≠ '&')
    (hc2 : c ≠ '<') (hc3 : c ≠ '>') :
    safeMarkup (c :: rest) = safeMarkup rest := by
  conv_lhs => unfold safeMarkup
  split <;> simp_all

theorem safeMarkup_lt (rest : Str) :
    safeMarkup ("&lt;".toList ++ rest) = safeMarkup rest := by
  show safeMarkup ('&' :: 'l' :: 't' :: ';' :: rest) = safeMarkup rest
  simp [safeMarkup]

theorem safeMarkup_gt (rest : Str) :
    safeMarkup ("&gt;".toList ++ rest) = safeMarkup rest := by
  show safeMarkup ('&' :: 'g' :: 't' :: ';' :: rest) = safeMarkup rest
  simp [safeMarkup]

theorem safeMarkup_quot (rest : Str) :
    safeMarkup ("&quot;".toList ++ rest) = safeMarkup rest := by
  show safeMarkup ('&' :: 'q' :: 'u' :: 'o' :: 't' :: ';' :: rest) = safeMarkup rest
  simp [safeMarkup]

theorem safeMarkup_num39 (rest : Str) :
    safeMarkup ("&#39;".toList ++ rest) = safeMarkup rest := by
  show safeMarkup ('&' :: '#' :: '3' :: '9' :: ';' :: rest) = safeMarkup rest
  simp [safeMarkup]

theorem safeMarkup_br_eq (rest : Str) :
    safeMarkup ("<br>".toList ++ rest) = safeMarkup rest := by
  show safeMarkup ('<' :: 'b' :: 'r' :: '>' :: rest) = safeMarkup rest
  simp [safeMarkup]

theorem safeMarkup_closea (rest : Str) :
    safeMarkup ("</a>".toList ++ rest) = safeMarkup rest := by
  show safeMarkup ('<' :: '/' :: 'a' :: '>' :: rest) = safeMarkup rest
  simp [safeMarkup]

theorem safeMarkup_anchor_open (rest : Str) :
    safeMarkup ("<a href=\"".toList ++ rest) = hrefScan rest := by
  show safeMarkup ('<' :: 'a' :: ' ' :: 'h' :: 'r' :: 'e' :: 'f' :: '=' :: '"' ::
    rest) = hrefScan rest
  simp [safeMarkup]

theorem hrefScan_close (rest : Str) :
    hrefScan ("\">".toList ++ rest) = safeMarkup rest := by
  show hrefScan ('"' :: '>' :: rest) = safeMarkup rest
  simp [hrefScan]

theorem hrefScan_cons_plain (c : Char) (rest : Str) (hc1 : c ≠ '"')
    (hc2 : c ≠ '<') (hc3 : c ≠ '>') :
    hrefScan (c :: rest) = hrefScan rest := by
  conv_lhs => unfold hrefScan
  split <;> simp_all

theorem safeChar_facts (c : Char) (h : safeChar c = true) :
    c ≠ '&' ∧ c ≠ '<' ∧ c ≠ '>' := by
  simp only [safeChar, Bool.and_eq_true, Bool.not_eq_true', beq_eq_false_iff_ne,
    ne_eq] at h
  exact ⟨h.1.1.1.1, h.1.1.1.2, h.1.1.2⟩

theorem midChar_facts (c : Char) (h : midChar c = true) :
    c ≠ '&' ∧ c ≠ '<' ∧ c ≠ '>' := by
  simp only [midChar, Bool.and_eq_true, Bool.not_eq_true', beq_eq_false_iff_ne,
    ne_eq] at h
  exact ⟨h.1.1, h.1.2, h.2⟩

theorem safeMarkup_escText_skip (u Y : Str) (hu : EscText u) :
    safeMarkup (u ++ Y) = safeMarkup Y := by
  induction hu with
  | nil => rfl
  | ent e r he hr ih =>
    rw [List.append_assoc]
    simp only [entityList, List.mem_cons, List.not_mem_nil, or_false] at he
    rcases he with he | he | he | he | he <;> subst he
    · rw [safeMarkup_amp]; exact ih
    · rw [safeMarkup_lt]; exact ih
    · rw [safeMarkup_gt]; exact ih
    · rw [safeMarkup_quot]; exact ih
    · rw [safeMarkup_num39]; exact ih
  | chr c r hc hr ih =>
    obtain ⟨h1, h2, h3⟩ := safeChar_facts c hc
    rw [List.cons_append, safeMarkup_cons_plain c _ h1 h2 h3]
    exact ih

theorem hrefScan_url (u X : Str) (hu : ∀ c ∈ u, urlChar c = true) :
    hrefScan (u ++ ("\">".toList ++ X)) = safeMarkup X := by
  induction u with
  | nil => rw [List.nil_append, hrefScan_close]
  | cons c u2 ih =>
    obtain ⟨_, _, h3, h4, h5⟩ := urlChar_facts c (hu c (List.mem_cons_self c u2))
    rw [List.cons_append, hrefScan_cons_plain c _ h5 h3 h4]
    exact ih (fun d hd => hu d (List.mem_cons_of_mem c hd))

theorem midText_safe_aux (n : Nat) : ∀ s : Str, s.length ≤ n → MidText s →
    safeMarkup s = true := by
  induction n with
  | zero =>
    intro s hl _
    have hs : s = [] := List.eq_nil_of_length_eq_zero (Nat.le_zero.1 hl)
    subst hs
    exact safeMarkup_nil
  | succ n ih =>
    intro s hl hm
    rcases midText_inv s hm with h0 | ⟨e, r, he, heq, hr⟩ | ⟨c, r, hc, heq, hr⟩ |
      ⟨url, r, h1, h2, h3, heq, hr⟩ | ⟨r, heq, hr⟩
    · subst h0
      exact safeMarkup_nil
    · subst heq
      have hrlen : r.length ≤ n := by
        have hep : 0 < e.length := List.length_pos.2 (entity_ne_nil e he)
        simp only [List.length_append] at hl
        omega
      simp only [entityList, List.mem_cons, List.not_mem_nil, or_false] at he
      rcases he with he | he | he | he | he <;> subst he
      · rw [safeMarkup_amp]; exact ih r hrlen hr
      · rw [safeMarkup_lt]; exact ih r hrlen hr
      · rw [safeMarkup_gt]; exact ih r hrlen hr
      · rw [safeMarkup_quot]; exact ih r hrlen hr
      · rw [safeMarkup_num39]; exact ih r hrlen hr
    · subst heq
      have hrlen : r.length ≤ n := by
        simp only [List.length_cons] at hl
        omega
      obtain ⟨h1, h2, h3⟩ := midChar_facts c hc
      rw [safeMarkup_cons_plain c _ h1 h2 h3]
      exact ih r hrlen hr
    · subst heq
      have hrlen : r.length ≤ n := by
        have := anchorStr_length_pos url
        simp only [List.length_append] at hl
        omega
      have hshape : anchorStr url ++ r =
          "<a href=\"".toList ++ (url ++ ("\">".toList ++
            (url ++ ("</a>".toList ++ r)))) := by
        simp [anchorStr, List.append_assoc]
      rw [hshape, safeMarkup_anchor_open, hrefScan_url url _ h2,
        safeMarkup_escText_skip url _ h3, safeMarkup_closea]
      exact ih r hrlen hr
    · subst heq
      have hrlen : r.length ≤ n := by
        simp only [List.length_append] at hl
        simp at hl
        omega
      rw [safeMarkup_br_eq]
      exact ih r hrlen hr

theorem midText_safe (s : Str) (h : MidText s) : safeMarkup s = true :=
  midText_safe_aux s.length s le_rfl h

/-- C4: for every plain-text input, `convertTextToHtml` (escape the five
HTML-significant characters ampersand-first, linkify bare http(s) URLs, then
convert CRLF before the single-character newline forms) yields output in which
every `&` begins one of the five inserted entities, every `<` opens the
conversion's own `<br>`, `</a>` or `<a href="...">` markup and no bare `>`
occurs — i.e. no unescaped `<`, `>` or `&` outside the inserted markup. -/
theorem convertTextToHtml_safe (text : Str) :
    safeMarkup (convertTextToHtml text) = true := by
  unfold convertTextToHtml
  exact midText_safe _ (replaceChar_lf_mid _ (replaceChar_cr_mid _
    (replaceCRLF_mid _ (linkify_midText _ (escapeHtml_escText text)))))

end Dash

example : Dash.parseRRule ("FREQ=DAILY".toList) =
    some { freq := "DAILY".toList } := by decide

example : Dash.parseRRule ("RRULE:freq=weekly;INTERVAL=2;BYDAY=MO,WE".toList) =
    some { freq := "WEEKLY".toList, interval := some (.int 2),
           byDay := some ["MO".toList, "WE".toList] } := by decide

example : Dash.buildRRule
      { freq := "WEEKLY".toList, interval := some (.int 2),
        byDay := some ["MO".toList, "WE".toList] } =
    "RRULE:FREQ=WEEKLY;INTERVAL=2;BYDAY=MO,WE".toList := by decide

example :
    (Dash.rruleToUIState ("FREQ=MONTHLY;BYDAY=1MO;BYMONTHDAY=15".toList)).monthlyType =
      Dash.MonthlyType.dayOfMonth := by decide
